import Mathlib

/-!
Verification development for the lite-blog static site generator.

The JavaScript sources (src/lib/utils.js, src/lib/builder.js,
src/lib/server.js) are shallowly embedded below: pure functions become
Lean functions, the filesystem becomes an explicit `String → Option
String` map, JavaScript dynamic values that matter (null vs undefined,
the prototype chain of `{}` object literals) are modelled explicitly,
and unicode-dependent library functions (`toLowerCase`, NFD
normalization, md5) are abstracted as function parameters constrained
by stated properties.
-/

set_option maxRecDepth 10000

namespace LiteBlog

/-! ## Build cache (utils.js: getFileHash, needsRebuild) -/

/-- A JavaScript value arising when the build-cache code reads a hash:
either a hash string, JS `null` (returned by `getFileHash` when the file
does not exist) or JS `undefined` (property lookup on the cache object
for an absent path).  Strict equality `===` on these primitive values is
structural equality, and `null !== undefined`. -/
inductive HashVal where
  | undef : HashVal
  | null : HashVal
  | hash : String → HashVal
deriving DecidableEq, Repr

/-- Embedding of utils.js `getFileHash(filePath)`: `null` when the file
does not exist, otherwise the md5 hex digest of its content.  The
filesystem is the map `fs` from path to content and the digest function
is abstracted as the parameter `md5`. -/
def getFileHash (md5 : String → String) (fs : String → Option String)
    (filePath : String) : HashVal :=
  match fs filePath with
  | none => .null
  | some content => .hash (md5 content)

/-- Property lookup `cache[filePath]` on a persisted build-cache
snapshot.  A snapshot written by `saveBuildCache` is a JSON object
mapping each source path to its hash string, modelled as
`String → Option String`; lookup of an absent path yields `undefined`. -/
def cacheLookup (cache : String → Option String) (filePath : String) : HashVal :=
  match cache filePath with
  | none => .undef
  | some h => .hash h

/-- Embedding of utils.js `needsRebuild(filePath, cache)`:
`currentHash !== cachedHash`. -/
def needsRebuild (md5 : String → String) (fs : String → Option String)
    (filePath : String) (cache : String → Option String) : Bool :=
  getFileHash md5 fs filePath != cacheLookup cache filePath

/-! ## Post records (builder.js: parseMarkdownFile output shape) -/

/-- The fields of a parsed Post record that the build pass, related-post
ranking and feed generation inspect.  `slug` is the relative source path
with the extension stripped and is the unique key of a post. -/
structure Post where
  slug : String
  filePath : String
  title : String
  date : String
  description : String
  tags : List String
  template : String
  draft : Bool
  readingTime : Nat
deriving DecidableEq, Repr

/-- The inputs and ambient state of one invocation of `build`.  The
field `render` abstracts `renderTemplate(template, templateData)` of
`buildPost`: the HTML produced from a resolved template string and the
post (with its derived data); the build pass only inspects whether the
result is truthy, i.e. non-empty. -/
structure BuildCtx where
  incremental : Bool
  posts : List Post
  templates : String → Option String
  render : String → Post → String
  cache : String → Option String
  md5 : String → String
  fs : String → Option String
  outIndexExists : Bool
  postsPerPage : Nat

/-- The per-post rebuild gate in the build loop:
`!incremental || needsRebuild(post.filePath, cache)`. -/
def postGate (ctx : BuildCtx) (p : Post) : Bool :=
  !ctx.incremental || needsRebuild ctx.md5 ctx.fs p.filePath ctx.cache

/-- The non-draft posts whose rebuild is attempted in the loop (drafts
are skipped with `continue` before the gate is consulted). -/
def attemptedPosts (ctx : BuildCtx) : List Post :=
  ctx.posts.filter (fun p => !p.draft && postGate ctx p)

/-- C1: the rebuild gate `needsRebuild` returns false exactly when the
current content hash of the path equals the hash stored for it in the
snapshot (in particular it returns true for a path absent from the
snapshot), and on a non-incremental pass every non-draft post passes
the gate regardless of the cache. -/
theorem c1_rebuild_gate :
    ∀ (md5 : String → String) (fs : String → Option String)
      (filePath : String) (cache : String → Option String),
      (needsRebuild md5 fs filePath cache = false ↔
        ∃ h, getFileHash md5 fs filePath = .hash h ∧ cache filePath = some h) ∧
      (cache filePath = none → needsRebuild md5 fs filePath cache = true) ∧
      (∀ ctx : BuildCtx, ctx.incremental = false →
        attemptedPosts ctx = ctx.posts.filter (fun p => !p.draft)) := by
  intro md5 fs filePath cache
  refine ⟨?_, ?_, ?_⟩
  · unfold needsRebuild
    rw [bne_eq_false_iff_eq]
    cases hc : cache filePath <;> cases hf : fs filePath <;>
      simp [getFileHash, cacheLookup, hc, hf, eq_comm]
  · intro h
    unfold needsRebuild
    cases hf : fs filePath <;> simp [getFileHash, cacheLookup, h, hf]
  · intro ctx h
    unfold attemptedPosts postGate
    rw [h]
    simp

/-- Closed witness for c1_rebuild_gate: a path whose hash matches the
snapshot is not rebuilt, and a path absent from the snapshot is. -/
theorem c1_rebuild_gate_witness :
    needsRebuild (fun s => s ++ "h") (fun p => if p = "pages/a.md" then some "A" else none)
      "pages/a.md" (fun p => if p = "pages/a.md" then some "Ah" else none) = false ∧
    needsRebuild (fun s => s ++ "h") (fun p => if p = "pages/a.md" then some "A" else none)
      "pages/b.md" (fun _ => none) = true := by
  constructor
  · exact ((c1_rebuild_gate _ _ _ _).1).mpr ⟨"Ah", by decide, by decide⟩
  · exact (c1_rebuild_gate _ _ _ _).2.1 rfl

/-- C10: for a path that does not exist on the filesystem, getFileHash
returns null, and needsRebuild classifies the path as needing a rebuild
under every cache snapshot. -/
theorem c10_missing_file_always_rebuilds :
    ∀ (md5 : String → String) (fs : String → Option String) (filePath : String)
      (cache : String → Option String), fs filePath = none →
      getFileHash md5 fs filePath = .null ∧
      needsRebuild md5 fs filePath cache = true := by
  intro md5 fs filePath cache h
  have hg : getFileHash md5 fs filePath = .null := by
    unfold getFileHash; rw [h]
  refine ⟨hg, ?_⟩
  unfold needsRebuild
  rw [hg]
  cases hc : cache filePath <;> simp [cacheLookup, hc]

/-- Closed witness for c10_missing_file_always_rebuilds: a missing path
needs a rebuild both when the snapshot holds a hash for it and when it
does not. -/
theorem c10_missing_file_always_rebuilds_witness :
    needsRebuild (fun s => s) (fun _ => none) "pages/gone.md"
      (fun p => if p = "pages/gone.md" then some "deadbeef" else none) = true ∧
    needsRebuild (fun s => s) (fun _ => none) "pages/gone.md" (fun _ => none) = true :=
  ⟨(c10_missing_file_always_rebuilds _ _ _ _ rfl).2,
   (c10_missing_file_always_rebuilds _ _ _ _ rfl).2⟩

/-- Number of tags of `p` that also occur among the tags of `current`:
the score `(post.tags || []).filter(tag =>
currentPost.tags.includes(tag)).length`. -/
def sharedTagCount (current p : Post) : Nat :=
  (p.tags.filter (fun t => current.tags.contains t)).length

/-- The candidate filter of findRelatedPosts: a different slug, not a
draft, and not one of the special slugs. -/
def relatedEligible (current p : Post) : Bool :=
  p.slug != current.slug && !p.draft && p.slug != "index" && p.slug != "about" &&
    !(p.slug.startsWith "tags/")

/-- Stable insertion of a scored post into a score-sorted list: the new
element goes after every element with a strictly greater score and
before the first element whose score is less than or equal, so earlier
input stays first among equal scores. -/
def insertByScoreDesc (x : Post × Nat) : List (Post × Nat) → List (Post × Nat)
  | [] => [x]
  | y :: l => if x.2 < y.2 then y :: insertByScoreDesc x l else x :: y :: l

/-- Stable sort by descending score: the embedding of
`Array.prototype.sort` (a stable sort, as the language specification
mandates) with the comparator `(a, b) => b.score - a.score`. -/
def sortByScoreDesc : List (Post × Nat) → List (Post × Nat)
  | [] => []
  | x :: xs => insertByScoreDesc x (sortByScoreDesc xs)

/-- Embedding of utils.js `findRelatedPosts(currentPost, allPosts,
limit)`; `limit` defaults to 3 at every call site. -/
def findRelatedPosts (currentPost : Post) (allPosts : List Post) (limit : Nat) :
    List Post :=
  if currentPost.tags.isEmpty then []
  else
    ((sortByScoreDesc
        (((allPosts.filter (relatedEligible currentPost)).map
            (fun p => (p, sharedTagCount currentPost p))).filter
          (fun item => decide (0 < item.2)))).take limit).map Prod.fst

/-- Definition following the words of the claim, for comparison with
the source embedding: exactly the posts of the input other than the
current one (posts are identified by their slug, the unique post key)
that are non-draft, non-special and share at least one tag, stably
sorted by descending shared-tag count and truncated to the limit. -/
def relatedPostsSpec (current : Post) (posts : List Post) (limit : Nat) : List Post :=
  ((sortByScoreDesc
      ((posts.filter (fun p =>
          relatedEligible current p && decide (0 < sharedTagCount current p))).map
        (fun p => (p, sharedTagCount current p)))).take limit).map Prod.fst

/-- C6: findRelatedPosts agrees with the claim's description on every
input, and on the claim's concrete instance (A tagged x,y; B tagged x;
C tagged z; D a draft tagged x) it returns exactly B; ties are kept in
input order. -/
theorem c6_related_posts :
    (∀ (current : Post) (posts : List Post) (limit : Nat),
       findRelatedPosts current posts limit = relatedPostsSpec current posts limit) ∧
    (findRelatedPosts ⟨"a", "a.md", "A", "2024-01-01", "", ["x", "y"], "post", false, 1⟩
      [⟨"a", "a.md", "A", "2024-01-01", "", ["x", "y"], "post", false, 1⟩,
       ⟨"b", "b.md", "B", "2024-01-02", "", ["x"], "post", false, 1⟩,
       ⟨"c", "c.md", "C", "2024-01-03", "", ["z"], "post", false, 1⟩,
       ⟨"d", "d.md", "D", "2024-01-04", "", ["x"], "post", true, 1⟩] 3 =
      [⟨"b", "b.md", "B", "2024-01-02", "", ["x"], "post", false, 1⟩]) ∧
    (findRelatedPosts ⟨"a", "a.md", "A", "2024-01-01", "", ["x", "y"], "post", false, 1⟩
      [⟨"a", "a.md", "A", "2024-01-01", "", ["x", "y"], "post", false, 1⟩,
       ⟨"b1", "b1.md", "B1", "2024-01-02", "", ["x"], "post", false, 1⟩,
       ⟨"b2", "b2.md", "B2", "2024-01-03", "", ["y"], "post", false, 1⟩] 3 =
      [⟨"b1", "b1.md", "B1", "2024-01-02", "", ["x"], "post", false, 1⟩,
       ⟨"b2", "b2.md", "B2", "2024-01-03", "", ["y"], "post", false, 1⟩]) := by
  refine ⟨?_, by decide, by decide⟩
  intro current posts limit
  unfold findRelatedPosts relatedPostsSpec
  by_cases h : current.tags.isEmpty
  · have htags : current.tags = [] := by
      cases hc : current.tags
      · rfl
      · rw [hc] at h; simp at h
    rw [if_pos h]
    have hshared : ∀ p : Post, sharedTagCount current p = 0 := by
      intro p
      unfold sharedTagCount
      rw [htags]
      simp
    have : (posts.filter (fun p =>
        relatedEligible current p && decide (0 < sharedTagCount current p))) = [] := by
      apply List.filter_eq_nil_iff.mpr
      intro p _
      simp [hshared p]
    rw [this]
    simp [sortByScoreDesc]
  · rw [if_neg h, List.filter_map, List.filter_filter]
    have hco : ∀ p ∈ posts,
        (((fun item : Post × Nat => decide (0 < item.2)) ∘
            fun p => (p, sharedTagCount current p)) p && relatedEligible current p) =
        (relatedEligible current p && decide (0 < sharedTagCount current p)) := by
      intro p _
      simp [Bool.and_comm]
    rw [List.filter_congr hco]

/-! ## Character classes of the slug pipelines (utils.js: slugify,
addHeadingIds).  Classes are stated on code points so that `omega` can
reason about them. -/

/-- The character class `\s` of JavaScript regular expressions. -/
def jsWhitespace (c : Char) : Bool :=
  c.toNat = 0x9 || c.toNat = 0xA || c.toNat = 0xB || c.toNat = 0xC || c.toNat = 0xD ||
  c.toNat = 0x20 || c.toNat = 0xA0 || c.toNat = 0x1680 ||
  (0x2000 ≤ c.toNat && c.toNat ≤ 0x200A) ||
  c.toNat = 0x2028 || c.toNat = 0x2029 || c.toNat = 0x202F ||
  c.toNat = 0x205F || c.toNat = 0x3000 || c.toNat = 0xFEFF

/-- The class `[̀-ͯ]` of combining marks removed by slugify
after NFD normalization. -/
def isCombiningMark (c : Char) : Bool :=
  0x300 ≤ c.toNat && c.toNat ≤ 0x36F

/-- The class `[a-z0-9\s-]` kept by the strip step of slugify and
addHeadingIds (the complement is deleted). -/
def isSlugChar (c : Char) : Bool :=
  (0x61 ≤ c.toNat && c.toNat ≤ 0x7A) || (0x30 ≤ c.toNat && c.toNat ≤ 0x39) ||
    c.toNat = 0x2D || jsWhitespace c

/-- The characters that can appear in a finished slug: lowercase ASCII
letters, digits and the hyphen. -/
def isSlugOut (c : Char) : Bool :=
  (0x61 ≤ c.toNat && c.toNat ≤ 0x7A) || (0x30 ≤ c.toNat && c.toNat ≤ 0x39) ||
    c.toNat = 0x2D

/-- Replacement of every maximal whitespace run by one hyphen, the
regex replace `\s+` to `-`; the flag records being inside a run. -/
def squashWsGo (inRun : Bool) : List Char → List Char
  | [] => []
  | c :: cs =>
    if jsWhitespace c then
      if inRun then squashWsGo true cs else '-' :: squashWsGo true cs
    else c :: squashWsGo false cs

/-- The regex replace of `\s+` by a single hyphen. -/
def squashWs (l : List Char) : List Char := squashWsGo false l

/-- Replacement of every maximal hyphen run by one hyphen, the regex
replace `-+` to `-`. -/
def collapseGo (inRun : Bool) : List Char → List Char
  | [] => []
  | c :: cs =>
    if c = '-' then
      if inRun then collapseGo true cs else '-' :: collapseGo true cs
    else c :: collapseGo false cs

/-- The regex replace of `-+` by a single hyphen. -/
def collapseHyphens (l : List Char) : List Char := collapseGo false l

/-- JavaScript `String.prototype.trim`: strip whitespace from both ends. -/
def jsTrim (l : List Char) : List Char :=
  ((l.dropWhile jsWhitespace).reverse.dropWhile jsWhitespace).reverse

/-- Embedding of utils.js `slugify`: lower-case, NFD-normalize, strip
combining marks, strip everything outside `[a-z0-9\s-]`, turn
whitespace runs into hyphens, collapse hyphen runs, trim.  Unicode
lower-casing and NFD normalization are abstracted as the parameters
`lower` and `nfd`. -/
def slugify (lower nfd : String → String) (s : String) : String :=
  String.mk (jsTrim (collapseHyphens (squashWs
    (((nfd (lower s)).toList.filter (fun c => !isCombiningMark c)).filter isSlugChar))))

/-- Absence of two adjacent hyphens. -/
def noDoubleHyphen : List Char → Bool
  | [] => true
  | [_] => true
  | a :: b :: l => !(a = '-' && b = '-') && noDoubleHyphen (b :: l)

theorem slugOut_props (c : Char) (h : isSlugOut c = true) :
    jsWhitespace c = false ∧ isCombiningMark c = false ∧ isSlugChar c = true := by
  unfold isSlugOut at h
  unfold jsWhitespace isCombiningMark isSlugChar jsWhitespace
  simp only [Bool.or_eq_true, Bool.and_eq_true, decide_eq_true_eq] at h
  refine ⟨?_, ?_, ?_⟩
  · rw [Bool.eq_false_iff]
    intro hw
    simp only [Bool.or_eq_true, Bool.and_eq_true, decide_eq_true_eq] at hw
    omega
  · rw [Bool.eq_false_iff]
    intro hw
    simp only [Bool.and_eq_true, decide_eq_true_eq] at hw
    omega
  · simp only [Bool.or_eq_true, Bool.and_eq_true, decide_eq_true_eq]
    tauto

theorem slugChar_not_ws (c : Char) (h : isSlugChar c = true)
    (hw : jsWhitespace c = false) : isSlugOut c = true := by
  unfold isSlugChar at h
  rw [hw] at h
  unfold isSlugOut
  simpa using h

theorem squashWsGo_chars (l : List Char) (h : ∀ c ∈ l, isSlugChar c = true) :
    ∀ (b : Bool) (c : Char), c ∈ squashWsGo b l → isSlugOut c = true := by
  induction l with
  | nil => intro b c hc; simp [squashWsGo] at hc
  | cons a as ih =>
    intro b c hc
    have ha := h a (by simp)
    have hrest : ∀ c ∈ as, isSlugChar c = true := fun c hc => h c (by simp [hc])
    by_cases hw : jsWhitespace a = true
    · cases b with
      | true =>
        simp only [squashWsGo, hw, if_pos, if_true] at hc
        exact ih hrest true c hc
      | false =>
        simp only [squashWsGo, hw, if_true] at hc
        rcases List.mem_cons.mp hc with h1 | h1
        · subst h1; decide
        · exact ih hrest true c h1
    · rw [Bool.not_eq_true] at hw
      simp only [squashWsGo, hw, Bool.false_eq_true, if_false] at hc
      rcases List.mem_cons.mp hc with h1 | h1
      · subst h1; exact slugChar_not_ws c ha hw
      · exact ih hrest false c h1

theorem collapseGo_chars (l : List Char) (h : ∀ c ∈ l, isSlugOut c = true) :
    ∀ (b : Bool) (c : Char), c ∈ collapseGo b l → isSlugOut c = true := by
  induction l with
  | nil => intro b c hc; simp [collapseGo] at hc
  | cons a as ih =>
    intro b c hc
    have ha := h a (by simp)
    have hrest : ∀ c ∈ as, isSlugOut c = true := fun c hc => h c (by simp [hc])
    by_cases hh : a = '-'
    · subst hh
      cases b with
      | true =>
        simp only [collapseGo, if_pos, if_true] at hc
        exact ih hrest true c hc
      | false =>
        simp only [collapseGo, if_true] at hc
        rcases List.mem_cons.mp hc with h1 | h1
        · subst h1; decide
        · exact ih hrest true c h1
    · simp only [collapseGo, hh, if_false] at hc
      rcases List.mem_cons.mp hc with h1 | h1
      · subst h1; exact ha
      · exact ih hrest false c h1

theorem squashWsGo_eq_self (l : List Char) (h : ∀ c ∈ l, jsWhitespace c = false) :
    ∀ b : Bool, squashWsGo b l = l := by
  induction l with
  | nil => intro b; rfl
  | cons a as ih =>
    intro b
    have ha := h a (by simp)
    simp only [squashWsGo, ha, Bool.false_eq_true, if_false]
    rw [ih (fun c hc => h c (by simp [hc])) false]

theorem collapseGo_true_head (l : List Char) :
    ∀ c cs, collapseGo true l = c :: cs → c ≠ '-' := by
  induction l with
  | nil => intro c cs h; simp [collapseGo] at h
  | cons a as ih =>
    intro c cs h
    by_cases hh : a = '-'
    · subst hh
      simp only [collapseGo, if_pos, if_true] at h
      exact ih c cs h
    · simp only [collapseGo, hh, if_false] at h
      rw [List.cons_eq_cons] at h
      rw [← h.1]
      exact hh

theorem collapseGo_noHH (l : List Char) :
    ∀ b : Bool, noDoubleHyphen (collapseGo b l) = true := by
  induction l with
  | nil => intro b; rfl
  | cons a as ih =>
    intro b
    by_cases hh : a = '-'
    · subst hh
      cases b with
      | true => simp only [collapseGo, if_pos, if_true]; exact ih true
      | false =>
        simp only [collapseGo, if_true]
        cases hX : collapseGo true as with
        | nil => rfl
        | cons d ds =>
          have hd : d ≠ '-' := collapseGo_true_head as d ds hX
          have : noDoubleHyphen (d :: ds) = true := by rw [← hX]; exact ih true
          simp [noDoubleHyphen, hd, this]
    · simp only [collapseGo, hh, if_false]
      cases hX : collapseGo false as with
      | nil => rfl
      | cons d ds =>
        have : noDoubleHyphen (d :: ds) = true := by rw [← hX]; exact ih false
        simp [noDoubleHyphen, hh, this]

theorem collapseGo_eq_self (l : List Char) (h : noDoubleHyphen l = true) :
    collapseGo false l = l ∧
      ((∀ c cs, l = c :: cs → c ≠ '-') → collapseGo true l = l) := by
  induction l with
  | nil => exact ⟨rfl, fun _ => rfl⟩
  | cons a as ih =>
    have has : noDoubleHyphen as = true := by
      cases as with
      | nil => rfl
      | cons d ds => simp only [noDoubleHyphen, Bool.and_eq_true] at h; exact h.2
    constructor
    · by_cases hh : a = '-'
      · subst hh
        simp only [collapseGo, if_true]
        cases as with
        | nil => rfl
        | cons d ds =>
          have hd : d ≠ '-' := by
            simp only [noDoubleHyphen, Bool.and_eq_true, Bool.not_eq_eq_eq_not,
              Bool.not_true, Bool.and_eq_false_iff] at h
            rcases h.1 with h1 | h1
            · simp at h1
            · intro hc; rw [hc] at h1; simp at h1
          have htl := (ih has).2 (fun c cs hcc => by
            rw [List.cons_eq_cons] at hcc; rw [← hcc.1]; exact hd)
          rw [if_neg Bool.false_ne_true, htl]
      · simp only [collapseGo, hh, if_false]
        rw [(ih has).1]
    · intro hhead
      have hh : a ≠ '-' := hhead a as rfl
      simp only [collapseGo, hh, if_false]
      rw [(ih has).1]

theorem dropWhile_eq_self_of_none (p : Char → Bool) (l : List Char)
    (h : ∀ c ∈ l, p c = false) : l.dropWhile p = l := by
  cases l with
  | nil => rfl
  | cons a as =>
    rw [List.dropWhile_cons]
    simp [h a (by simp)]

theorem jsTrim_eq_self (l : List Char) (h : ∀ c ∈ l, jsWhitespace c = false) :
    jsTrim l = l := by
  unfold jsTrim
  rw [dropWhile_eq_self_of_none _ _ h,
      dropWhile_eq_self_of_none _ _ (fun c hc => h c (List.mem_reverse.mp hc)),
      List.reverse_reverse]

/-- C9: slugify is idempotent, for every lower-casing function and NFD
normalization that fix strings made of lowercase ASCII letters, digits
and hyphens (true of the JavaScript `toLowerCase` and `normalize`). -/
theorem c9_slugify_idempotent :
    ∀ (lower nfd : String → String),
      (∀ s : String, (∀ c ∈ s.toList, isSlugOut c = true) → lower s = s) →
      (∀ s : String, (∀ c ∈ s.toList, isSlugOut c = true) → nfd s = s) →
      ∀ s : String, slugify lower nfd (slugify lower nfd s) = slugify lower nfd s := by
  intro lower nfd hlower hnfd s
  have h0 : ∀ c ∈ ((nfd (lower s)).toList.filter
      (fun c => !isCombiningMark c)).filter isSlugChar, isSlugChar c = true :=
    fun c hc => (List.mem_filter.mp hc).2
  set L := squashWs (((nfd (lower s)).toList.filter
      (fun c => !isCombiningMark c)).filter isSlugChar) with hL
  have h1 : ∀ c ∈ L, isSlugOut c = true := fun c hc => squashWsGo_chars _ h0 false c hc
  set M := collapseHyphens L with hM
  have h2 : ∀ c ∈ M, isSlugOut c = true := fun c hc => collapseGo_chars _ h1 false c hc
  have hnoHH : noDoubleHyphen M = true := collapseGo_noHH L false
  have hMws : ∀ c ∈ M, jsWhitespace c = false := fun c hc => (slugOut_props c (h2 c hc)).1
  have htrim : jsTrim M = M := jsTrim_eq_self M hMws
  have hpass1 : slugify lower nfd s = String.mk M := by
    rw [slugify, ← hL, ← hM, htrim]
  rw [hpass1]
  have hlist : (String.mk M).toList = M := rfl
  have hallM : ∀ c ∈ (String.mk M).toList, isSlugOut c = true := by rw [hlist]; exact h2
  rw [slugify, hlower _ hallM, hnfd _ hallM, hlist]
  have hfilter1 : M.filter (fun c => !isCombiningMark c) = M :=
    List.filter_eq_self.mpr (fun c hc => by simp [(slugOut_props c (h2 c hc)).2.1])
  have hfilter2 : M.filter isSlugChar = M :=
    List.filter_eq_self.mpr (fun c hc => (slugOut_props c (h2 c hc)).2.2)
  rw [hfilter1, hfilter2]
  rw [show squashWs M = M from squashWsGo_eq_self M hMws false,
      show collapseHyphens M = M from (collapseGo_eq_self M hnoHH).1, htrim]

/-- Closed witness for c9_slugify_idempotent at a concrete string, with
the identity instantiating the abstract lower-casing and normalization
(both fix slug-alphabet strings). -/
theorem c9_slugify_idempotent_witness :
    slugify id id (slugify id id " Hello -- World 42 ") = slugify id id " Hello -- World 42 " :=
  c9_slugify_idempotent id id (fun _ _ => rfl) (fun _ _ => rfl) " Hello -- World 42 "

/-! ## Heading identifiers (utils.js: addHeadingIds)

The regex replace over the converted HTML is embedded structurally: a
document is the list of regex match results, where `Chunk.heading lvl
text` stands for a matched attribute-free `<hN>text</hN>` element (N in
2..6, text free of angle brackets) and `Chunk.raw` for the unmatched
segments in between, which the replace leaves untouched.  The counter
is a JavaScript object literal; the only own-or-inherited property of
`{}` whose name lies in the slug output alphabet is `constructor`
(inherited from Object.prototype), so the prototype chain is modelled
by that one key. -/

/-- A segment of the converted HTML presented to the heading regex. -/
inductive Chunk where
  | raw : String → Chunk
  | heading : Nat → String → Chunk
deriving DecidableEq, Repr

/-- A segment of the HTML produced by addHeadingIds; matched headings
now carry an id attribute. -/
inductive IdChunk where
  | raw : String → IdChunk
  | heading : Nat → String → String → IdChunk
deriving DecidableEq, Repr

/-- A value readable from the counter object: the inherited
`Object.prototype.constructor` function, `NaN` (produced by
incrementing that function), or a positive number. -/
inductive CtrVal where
  | protoFn : CtrVal
  | nan : CtrVal
  | num : Nat → CtrVal
deriving DecidableEq, Repr

/-- Property read on the counter object, prototype chain included:
an own property shadows; otherwise only `constructor` is inherited. -/
def ctrGet (m : List (String × CtrVal)) (k : String) : Option CtrVal :=
  match m.find? (fun e => decide (e.1 = k)) with
  | some e => some e.2
  | none => if k = "constructor" then some .protoFn else none

/-- Property write on the counter object (shadowing assignment). -/
def ctrSet (m : List (String × CtrVal)) (k : String) (v : CtrVal) :
    List (String × CtrVal) :=
  (k, v) :: m

/-- Decimal digit character. -/
def digitChar (d : Nat) : Char := Char.ofNat (0x30 + d)

/-- Decimal numeral of a natural number, the JavaScript string
interpolation of a nonnegative integer. -/
def decRepr (n : Nat) : List Char :=
  if n < 10 then [digitChar n]
  else decRepr (n / 10) ++ [digitChar (n % 10)]
termination_by n
decreasing_by exact Nat.div_lt_self (by omega) (by omega)

/-- One step of the id-assignment in addHeadingIds:
`if (counter[id]) { counter[id]++; id = id + "-" + counter[id] } else
{ counter[id] = 1 }`.  Truthiness: the inherited constructor function
is truthy and increments to NaN; NaN and 0 are falsy; a positive number
increments. -/
def assignId (m : List (String × CtrVal)) (base : String) :
    String × List (String × CtrVal) :=
  match ctrGet m base with
  | none => (base, ctrSet m base (.num 1))
  | some .nan => (base, ctrSet m base (.num 1))
  | some (.num 0) => (base, ctrSet m base (.num 1))
  | some .protoFn => (base ++ "-" ++ "NaN", ctrSet m base .nan)
  | some (.num (n + 1)) =>
    (base ++ "-" ++ String.mk (decRepr (n + 2)), ctrSet m base (.num (n + 2)))

/-- The base id of a heading text in addHeadingIds: lower-case, delete
characters outside `[a-z0-9\s-]`, replace whitespace runs by hyphens,
collapse hyphen runs, trim.  Unicode lower-casing is the parameter. -/
def headingBase (lower : String → String) (text : String) : String :=
  String.mk (jsTrim (collapseHyphens (squashWs ((lower text).toList.filter isSlugChar))))

/-- The replace loop of addHeadingIds, threading the counter object. -/
def addHeadingIdsGo (lower : String → String) (m : List (String × CtrVal)) :
    List Chunk → List IdChunk
  | [] => []
  | .raw s :: rest => .raw s :: addHeadingIdsGo lower m rest
  | .heading lvl text :: rest =>
    let r := assignId m (headingBase lower text)
    .heading lvl r.1 text :: addHeadingIdsGo lower r.2 rest

/-- Embedding of utils.js addHeadingIds: the counter starts as the
empty object literal. -/
def addHeadingIds (lower : String → String) (doc : List Chunk) : List IdChunk :=
  addHeadingIdsGo lower [] doc

/-- The heading texts of a document, in order. -/
def headingTexts : List Chunk → List String
  | [] => []
  | .raw _ :: rest => headingTexts rest
  | .heading _ t :: rest => t :: headingTexts rest

/-- The assigned heading ids of a processed document, in order. -/
def headingIds : List IdChunk → List String
  | [] => []
  | .raw _ :: rest => headingIds rest
  | .heading _ i _ :: rest => i :: headingIds rest

/-- Closed form of the id assigned to a heading whose base slug is
`base` when `k` earlier headings of the same base occurred: the first
gets the bare base and later ones get `-2`, `-3`, …, except for the
base `constructor`, whose inherited prototype entry makes the first
occurrence `constructor-NaN` and the second the bare base. -/
def occId (base : String) (k : Nat) : String :=
  if base = "constructor" then
    match k with
    | 0 => base ++ "-" ++ "NaN"
    | 1 => base
    | n + 2 => base ++ "-" ++ String.mk (decRepr (n + 2))
  else
    match k with
    | 0 => base
    | n + 1 => base ++ "-" ++ String.mk (decRepr (n + 2))

/-- The counter entry for `base` after `k` occurrences of that base. -/
def stateOf (base : String) (k : Nat) : Option CtrVal :=
  if base = "constructor" then
    match k with
    | 0 => some .protoFn
    | 1 => some .nan
    | n + 2 => some (.num (n + 1))
  else
    match k with
    | 0 => none
    | k + 1 => some (.num (k + 1))

/-- The ids produced for a sequence of base slugs, given how many
occurrences of each base came before. -/
def occIdsFrom (prior : String → Nat) : List String → List String
  | [] => []
  | b :: bs =>
    occId b (prior b) ::
      occIdsFrom (fun x => if x = b then prior x + 1 else prior x) bs

/-- ASCII-only lower-casing; the JavaScript `toLowerCase` agrees with
it on ASCII strings. -/
def asciiLower (s : String) : String :=
  String.mk (s.toList.map (fun c =>
    if 0x41 ≤ c.toNat && c.toNat ≤ 0x5A then Char.ofNat (c.toNat + 32) else c))

/-- ASCII lowercase letter or digit. -/
def isAlnum (c : Char) : Bool :=
  (0x61 ≤ c.toNat && c.toNat ≤ 0x7A) || (0x30 ≤ c.toNat && c.toNat ≤ 0x39)

/-- Collapsing every maximal run of non-alphanumeric characters to one
hyphen. -/
def squashNonAlnumGo (inRun : Bool) : List Char → List Char
  | [] => []
  | c :: cs =>
    if isAlnum c then c :: squashNonAlnumGo false cs
    else if inRun then squashNonAlnumGo true cs
    else '-' :: squashNonAlnumGo true cs

/-- Definition following the words of the claim, for comparison with
the source embedding: a heading id is the lower-cased text with
non-alphanumeric characters collapsed to hyphens. -/
def claimHeadingId (lower : String → String) (text : String) : String :=
  String.mk (squashNonAlnumGo false (lower text).toList)

theorem digitChar_toNat (d : Nat) (h : d < 10) : (digitChar d).toNat = 0x30 + d := by
  interval_cases d <;> decide

theorem decRepr_ne_nil (n : Nat) : decRepr n ≠ [] := by
  rw [decRepr]
  by_cases h : n < 10 <;> simp [h]

theorem decRepr_head_digit (n : Nat) :
    ∀ c cs, decRepr n = c :: cs → 0x30 ≤ c.toNat ∧ c.toNat ≤ 0x39 := by
  induction n using Nat.strong_induction_on with
  | _ n ih =>
    intro c cs h
    rw [decRepr] at h
    by_cases hn : n < 10
    · rw [if_pos hn] at h
      rw [List.cons_eq_cons] at h
      rw [← h.1, digitChar_toNat n hn]
      omega
    · rw [if_neg hn] at h
      cases hd : decRepr (n / 10) with
      | nil => exact absurd hd (decRepr_ne_nil _)
      | cons d ds =>
        rw [hd, List.cons_append, List.cons_eq_cons] at h
        rw [← h.1]
        exact ih (n / 10) (Nat.div_lt_self (by omega) (by omega)) d ds hd

theorem decRepr_unfold (a : Nat) : decRepr a =
    if a < 10 then [digitChar a] else decRepr (a / 10) ++ [digitChar (a % 10)] := by
  rw [decRepr]

theorem decRepr_inj (m : Nat) : ∀ n, decRepr m = decRepr n → m = n := by
  induction m using Nat.strong_induction_on with
  | _ m ih =>
    intro n h
    by_cases hm : m < 10 <;> by_cases hn : n < 10
    · rw [decRepr_unfold m, if_pos hm, decRepr_unfold n, if_pos hn,
        List.cons_eq_cons] at h
      have := congrArg Char.toNat h.1
      rw [digitChar_toNat m hm, digitChar_toNat n hn] at this
      omega
    · exfalso
      rw [decRepr_unfold m, if_pos hm, decRepr_unfold n, if_neg hn] at h
      have hlen := congrArg List.length h
      simp only [List.length_append, List.length_cons, List.length_nil] at hlen
      have hpos := List.length_pos.mpr (decRepr_ne_nil (n / 10))
      omega
    · exfalso
      rw [decRepr_unfold m, if_neg hm, decRepr_unfold n, if_pos hn] at h
      have hlen := congrArg List.length h
      simp only [List.length_append, List.length_cons, List.length_nil] at hlen
      have hpos := List.length_pos.mpr (decRepr_ne_nil (m / 10))
      omega
    · rw [decRepr_unfold m, if_neg hm, decRepr_unfold n, if_neg hn] at h
      have hrev := congrArg List.reverse h
      simp only [List.reverse_append, List.reverse_cons, List.reverse_nil,
        List.nil_append, List.cons_append, List.cons_eq_cons] at hrev
      have hmod : m % 10 = n % 10 := by
        have := congrArg Char.toNat hrev.1
        rw [digitChar_toNat _ (Nat.mod_lt _ (by omega)),
            digitChar_toNat _ (Nat.mod_lt _ (by omega))] at this
        omega
      have hdivEq : decRepr (m / 10) = decRepr (n / 10) := by
        have := congrArg List.reverse hrev.2
        simpa using this
      have hdiv := ih (m / 10) (Nat.div_lt_self (by omega) (by omega)) (n / 10) hdivEq
      have e1 := Nat.div_add_mod m 10
      have e2 := Nat.div_add_mod n 10
      omega

theorem ctrGet_ctrSet (m : List (String × CtrVal)) (k : String) (v : CtrVal)
    (b : String) : ctrGet (ctrSet m k v) b = if k = b then some v else ctrGet m b := by
  unfold ctrGet ctrSet
  by_cases h : k = b <;> simp [List.find?_cons, h]

/-- Inequality of ids assigned to different occurrence counts of one
base slug. -/
theorem occId_ne (b : String) (k1 k2 : Nat) (hne : k1 ≠ k2) :
    occId b k1 ≠ occId b k2 := by
  have hnan : ("NaN" : String).data = ['N', 'a', 'N'] := rfl
  have hdash : ("-" : String).data = ['-'] := rfl
  have hbareNe : ∀ t : String, t.data ≠ [] → b ≠ b ++ "-" ++ t := by
    intro t ht he
    have hd := congrArg String.data he
    simp only [String.data_append, hdash] at hd
    have hlen := congrArg List.length hd
    simp only [List.length_append, List.length_cons, List.length_nil] at hlen
    omega
  have hsufNe : ∀ t u : String, t.data ≠ u.data → b ++ "-" ++ t ≠ b ++ "-" ++ u := by
    intro t u ht he
    have hd := congrArg String.data he
    simp only [String.data_append, List.append_assoc] at hd
    exact ht (List.append_cancel_left (List.append_cancel_left hd))
  have hnanNe : ∀ a : Nat, ("NaN" : String).data ≠ (String.mk (decRepr a)).data := by
    intro a hcontra
    rw [hnan] at hcontra
    have := decRepr_head_digit a
    cases hd : decRepr a with
    | nil => exact decRepr_ne_nil a hd
    | cons c cs =>
      rw [hd, List.cons_eq_cons] at hcontra
      have hdig := decRepr_head_digit a c cs hd
      have := congrArg Char.toNat hcontra.1
      simp at this
      omega
  have hreprNe : ∀ a c : Nat, a ≠ c →
      (String.mk (decRepr a)).data ≠ (String.mk (decRepr c)).data := by
    intro a c hac hcontra
    exact hac (decRepr_inj a c hcontra)
  unfold occId
  by_cases hb : b = "constructor"
  · rw [if_pos hb, if_pos hb]
    match k1, k2, hne with
    | 0, 1, _ => exact fun he => hbareNe "NaN" (by rw [hnan]; simp) he.symm
    | 1, 0, _ => exact hbareNe "NaN" (by rw [hnan]; simp)
    | 0, n + 2, _ => exact hsufNe _ _ (hnanNe (n + 2))
    | n + 2, 0, _ => exact hsufNe _ _ fun he => hnanNe (n + 2) he.symm
    | 1, n + 2, _ => exact hbareNe _ (decRepr_ne_nil (n + 2))
    | n + 2, 1, _ => exact fun he => hbareNe _ (decRepr_ne_nil (n + 2)) he.symm
    | n + 2, m + 2, hne => exact hsufNe _ _ (hreprNe _ _ (by omega))
  · rw [if_neg hb, if_neg hb]
    match k1, k2, hne with
    | 0, n + 1, _ => exact hbareNe _ (decRepr_ne_nil (n + 2))
    | n + 1, 0, _ => exact fun he => hbareNe _ (decRepr_ne_nil (n + 2)) he.symm
    | n + 1, m + 1, hne => exact hsufNe _ _ (hreprNe _ _ (by omega))

/-- One assignId step keeps the counter invariant and emits the
closed-form id. -/
theorem assignId_step (m : List (String × CtrVal)) (prior : String → Nat)
    (base : String) (hInv : ∀ b, ctrGet m b = stateOf b (prior b)) :
    (assignId m base).1 = occId base (prior base) ∧
      (∀ b, ctrGet (assignId m base).2 b =
        stateOf b (if b = base then prior b + 1 else prior b)) := by
  have hbase := hInv base
  have hsnd : ∀ v : CtrVal, some v = stateOf base (prior base + 1) →
      ∀ b, ctrGet (ctrSet m base v) b =
        stateOf b (if b = base then prior b + 1 else prior b) := by
    intro v hv b
    rw [ctrGet_ctrSet]
    by_cases hb : b = base
    · subst hb
      rw [if_pos rfl, if_pos rfl, hv]
    · rw [if_neg (fun h => hb h.symm), if_neg hb, hInv b]
  by_cases hc : base = "constructor"
  · rw [stateOf.eq_def, if_pos hc] at hbase
    match hk : prior base with
    | 0 =>
      rw [hk] at hbase
      have hav : assignId m base = (base ++ "-" ++ "NaN", ctrSet m base .nan) := by
        unfold assignId
        rw [hbase]
      rw [hav]
      refine ⟨?_, hsnd _ ?_⟩
      · rw [occId.eq_def, if_pos hc]
      · rw [hk, stateOf.eq_def, if_pos hc]
    | 1 =>
      rw [hk] at hbase
      have hav : assignId m base = (base, ctrSet m base (.num 1)) := by
        unfold assignId
        rw [hbase]
      rw [hav]
      refine ⟨?_, hsnd _ ?_⟩
      · rw [occId.eq_def, if_pos hc]
      · rw [hk, stateOf.eq_def, if_pos hc]
    | n + 2 =>
      rw [hk] at hbase
      have hav : assignId m base =
          (base ++ "-" ++ String.mk (decRepr (n + 2)), ctrSet m base (.num (n + 2))) := by
        unfold assignId
        rw [hbase]
      rw [hav]
      refine ⟨?_, hsnd _ ?_⟩
      · rw [occId.eq_def, if_pos hc]
      · rw [hk, stateOf.eq_def, if_pos hc]
  · rw [stateOf.eq_def, if_neg hc] at hbase
    match hk : prior base with
    | 0 =>
      rw [hk] at hbase
      have hav : assignId m base = (base, ctrSet m base (.num 1)) := by
        unfold assignId
        rw [hbase]
      rw [hav]
      refine ⟨?_, hsnd _ ?_⟩
      · rw [occId.eq_def, if_neg hc]
      · rw [hk, stateOf.eq_def, if_neg hc]
    | n + 1 =>
      rw [hk] at hbase
      have hav : assignId m base =
          (base ++ "-" ++ String.mk (decRepr (n + 2)), ctrSet m base (.num (n + 2))) := by
        unfold assignId
        rw [hbase]
      rw [hav]
      refine ⟨?_, hsnd _ ?_⟩
      · rw [occId.eq_def, if_neg hc]
      · rw [hk, stateOf.eq_def, if_neg hc]

theorem addHeadingIdsGo_ids (lower : String → String) :
    ∀ (doc : List Chunk) (m : List (String × CtrVal)) (prior : String → Nat),
      (∀ b, ctrGet m b = stateOf b (prior b)) →
      headingIds (addHeadingIdsGo lower m doc) =
        occIdsFrom prior ((headingTexts doc).map (headingBase lower)) := by
  intro doc
  induction doc with
  | nil => intro m prior _; rfl
  | cons c rest ih =>
    intro m prior hInv
    cases c with
    | raw s => simpa [addHeadingIdsGo, headingIds, headingTexts] using ih m prior hInv
    | heading lvl text =>
      have hstep := assignId_step m prior (headingBase lower text) hInv
      simp only [addHeadingIdsGo, headingIds, headingTexts, List.map, occIdsFrom]
      exact congrArg₂ List.cons hstep.1 (ih _ _ hstep.2)

theorem occIdsFrom_getElem (bases : List String) :
    ∀ (prior : String → Nat) (j : Nat) (b : String), bases[j]? = some b →
      ∃ k, prior b ≤ k ∧ (occIdsFrom prior bases)[j]? = some (occId b k) := by
  induction bases with
  | nil => intro prior j b h; simp at h
  | cons b0 bs ih =>
    intro prior j b h
    cases j with
    | zero =>
      rw [List.getElem?_cons_zero, Option.some_inj] at h
      subst h
      exact ⟨prior b0, le_refl _, by simp [occIdsFrom]⟩
    | succ j =>
      rw [List.getElem?_cons_succ] at h
      obtain ⟨k, hk, hval⟩ :=
        ih (fun x => if x = b0 then prior x + 1 else prior x) j b h
      refine ⟨k, ?_, by simpa [occIdsFrom] using hval⟩
      by_cases hb : b = b0
      · subst hb; simp at hk; omega
      · simpa [hb] using hk

theorem occIdsFrom_distinct (bases : List String) :
    ∀ (prior : String → Nat) (i j : Nat), i < j → j < bases.length →
      bases[i]? = bases[j]? →
      (occIdsFrom prior bases)[i]? ≠ (occIdsFrom prior bases)[j]? := by
  induction bases with
  | nil => intro prior i j hij hj hb; simp at hj
  | cons b0 bs ih =>
    intro prior i j hij hj hb
    cases i with
    | zero =>
      cases j with
      | zero => omega
      | succ j =>
        rw [List.getElem?_cons_zero, List.getElem?_cons_succ] at hb
        obtain ⟨k, hk, hval⟩ := occIdsFrom_getElem bs
          (fun x => if x = b0 then prior x + 1 else prior x) j b0 hb.symm
        simp only [occIdsFrom, List.getElem?_cons_zero, List.getElem?_cons_succ]
        rw [hval]
        intro hcontra
        rw [Option.some_inj] at hcontra
        simp at hk
        exact occId_ne b0 (prior b0) k (by omega) hcontra
    | succ i =>
      cases j with
      | zero => omega
      | succ j =>
        rw [List.getElem?_cons_succ, List.getElem?_cons_succ] at hb
        simp only [occIdsFrom, List.getElem?_cons_succ]
        exact ih _ i j (by omega) (by simpa using hj) hb

/-- C5 fails as stated in its id formula: a heading text `a.b` receives
the id `ab` (non-alphanumeric characters other than whitespace are
deleted, not collapsed to hyphens), and two headings `Constructor`
receive `constructor-NaN` and `constructor` rather than `constructor`
and `constructor-2` (the brand-new counter object inherits a truthy
`constructor` property from its prototype). -/
theorem c5_counterexample :
    headingIds (addHeadingIds asciiLower [Chunk.heading 2 "a.b"]) = ["ab"] ∧
    claimHeadingId asciiLower "a.b" = "a-b" ∧ ("ab" : String) ≠ "a-b" ∧
    headingIds (addHeadingIds asciiLower
        [Chunk.heading 2 "Constructor", Chunk.heading 2 "Constructor"]) =
      ["constructor-NaN", "constructor"] ∧
    (["constructor-NaN", "constructor"] : List String) ≠
      ["constructor", "constructor-2"] := by
  refine ⟨by decide, by decide, by decide, by decide, by decide⟩

/-- C5 amended: addHeadingIds is deterministic; its ids follow the
closed form occId applied to the base slug (lower-cased text with
characters outside `[a-z0-9\s-]` deleted, whitespace runs turned into
hyphens, hyphen runs collapsed, trimmed) and the number of earlier
same-base headings — the first occurrence gets the bare base and
collisions get `-2`, `-3`, … in first-seen order, except the base
`constructor`, where the inherited prototype property makes the
sequence `constructor-NaN`, `constructor`, `constructor-2`, …; hence
two headings with identical text always receive distinct ids. -/
theorem c5_heading_ids :
    (∀ (lower : String → String) (d1 d2 : List Chunk), d1 = d2 →
       addHeadingIds lower d1 = addHeadingIds lower d2) ∧
    (∀ (lower : String → String) (doc : List Chunk),
       headingIds (addHeadingIds lower doc) =
         occIdsFrom (fun _ => 0) ((headingTexts doc).map (headingBase lower))) ∧
    (∀ (lower : String → String) (doc : List Chunk) (i j : Nat),
       i < j → j < (headingTexts doc).length →
       (headingTexts doc)[i]? = (headingTexts doc)[j]? →
       (headingIds (addHeadingIds lower doc))[i]? ≠
         (headingIds (addHeadingIds lower doc))[j]?) ∧
    (headingIds (addHeadingIds asciiLower
        [Chunk.heading 2 "foo", Chunk.raw "<p>x</p>", Chunk.heading 3 "foo"]) =
      ["foo", "foo-2"]) := by
  have hInv0 : ∀ b, ctrGet [] b = stateOf b 0 := by
    intro b
    unfold ctrGet stateOf
    by_cases hb : b = "constructor" <;> simp [List.find?, hb]
  have hchar : ∀ (lower : String → String) (doc : List Chunk),
      headingIds (addHeadingIds lower doc) =
        occIdsFrom (fun _ => 0) ((headingTexts doc).map (headingBase lower)) :=
    fun lower doc => addHeadingIdsGo_ids lower doc [] (fun _ => 0) hInv0
  refine ⟨fun lower d1 d2 h => by rw [h], hchar, ?_, ?_⟩
  · intro lower doc i j hij hj htext
    rw [hchar]
    apply occIdsFrom_distinct
    · exact hij
    · rw [List.length_map]; exact hj
    · rw [List.getElem?_map, List.getElem?_map, htext]
  · rw [hchar]
    have hbasefoo : headingBase asciiLower "foo" = "foo" := by decide
    have hocc0 : occId "foo" 0 = "foo" := by
      rw [occId.eq_def, if_neg (by decide)]
    have hocc1 : occId "foo" 1 = "foo-2" := by
      rw [occId.eq_def, if_neg (by decide)]
      show "foo" ++ "-" ++ String.mk (decRepr (0 + 2)) = "foo-2"
      rw [decRepr_unfold]
      decide
    simp [headingTexts, occIdsFrom, hbasefoo, hocc0, hocc1]

/-- Closed witness for c5_heading_ids: its distinctness part applied to
a concrete document with two identical headings. -/
theorem c5_heading_ids_witness :
    (headingIds (addHeadingIds asciiLower
        [Chunk.heading 2 "foo", Chunk.heading 2 "foo"]))[0]? ≠
      (headingIds (addHeadingIds asciiLower
        [Chunk.heading 2 "foo", Chunk.heading 2 "foo"]))[1]? :=
  c5_heading_ids.2.2.1 asciiLower
    [Chunk.heading 2 "foo", Chunk.heading 2 "foo"] 0 1
    (by omega) (by decide) (by decide)

/-! ## RSS generation (utils.js: generateRSS, escapeXml)

Date parsing and UTC formatting are abstracted as the parameters
`dateVal` (the numeric value of `new Date(s)`, used by the sort
comparator) and `toUTC` (`Date.prototype.toUTCString`); the build
wall-clock `new Date().toUTCString()` is the explicit input `nowUTC`. -/

/-- The configuration fields generateRSS reads. -/
structure SiteConfig where
  title : String
  description : String
  siteUrl : String
deriving DecidableEq, Repr

/-- Expansion of one character under escapeXml.  The source applies
five sequential global replaces (`&`, `<`, `>`, `"`, `'`); since no
replacement text contains a character replaced by a later pass, their
composition is this character-wise map. -/
def escapeXmlChar (c : Char) : List Char :=
  if c = '&' then "&amp;".toList
  else if c = '<' then "&lt;".toList
  else if c = '>' then "&gt;".toList
  else if c = '"' then "&quot;".toList
  else if c = '\'' then "&apos;".toList
  else [c]

/-- Embedding of utils.js escapeXml (the empty string maps to itself,
matching the falsy early return). -/
def escapeXml (str : String) : String :=
  String.mk (str.toList.flatMap escapeXmlChar)

/-- Stable insertion of a post into a list sorted by descending date
value: after strictly later posts, before earlier-or-equal ones. -/
def insertByDateDesc (dateVal : String → Int) (x : Post) : List Post → List Post
  | [] => [x]
  | y :: l =>
    if dateVal x.date < dateVal y.date then y :: insertByDateDesc dateVal x l
    else x :: y :: l

/-- Stable sort by descending date, the embedding of
`.sort((a, b) => new Date(b.date) - new Date(a.date))`. -/
def sortByDateDesc (dateVal : String → Int) : List Post → List Post
  | [] => []
  | x :: xs => insertByDateDesc dateVal x (sortByDateDesc dateVal xs)

/-- One `<item>` block of the feed. -/
def rssItem (toUTC : String → String) (siteUrl : String) (post : Post) : String :=
  "  <item>\n    <title>" ++ escapeXml post.title ++
    "</title>\n    <link>" ++ (siteUrl ++ "/" ++ post.slug ++ ".html") ++
    "</link>\n    <guid>" ++ (siteUrl ++ "/" ++ post.slug ++ ".html") ++
    "</guid>\n    <pubDate>" ++ toUTC post.date ++
    "</pubDate>\n    <description>" ++ escapeXml post.description ++
    "</description>\n  </item>\n"

/-- The posts syndicated by the feed: non-draft, non-special, sorted
reverse-chronologically, truncated to 20. -/
def rssPosts (dateVal : String → Int) (posts : List Post) : List Post :=
  (sortByDateDesc dateVal (posts.filter (fun p =>
    !p.draft && p.slug != "index" && !(p.slug.startsWith "tags/") &&
      p.slug != "about"))).take 20

/-- Embedding of utils.js generateRSS. -/
def generateRSS (dateVal : String → Int) (toUTC : String → String)
    (posts : List Post) (cfg : SiteConfig) (nowUTC : String) : String :=
  "<?xml version=\"1.0\" encoding=\"UTF-8\"?>\n<rss version=\"2.0\" xmlns:atom=\"http://www.w3.org/2005/Atom\">\n<channel>\n  <title>" ++
    escapeXml cfg.title ++ "</title>\n  <description>" ++
    escapeXml cfg.description ++ "</description>\n  <link>" ++
    cfg.siteUrl ++ "</link>\n  <atom:link href=\"" ++ cfg.siteUrl ++
    "/rss.xml\" rel=\"self\" type=\"application/rss+xml\"/>\n  <lastBuildDate>" ++
    nowUTC ++ "</lastBuildDate>\n" ++
    String.join ((rssPosts dateVal posts).map (rssItem toUTC cfg.siteUrl)) ++
    "</channel>\n</rss>"

/-- Everything of the feed before the lastBuildDate text; independent
of the build time. -/
def rssBefore (cfg : SiteConfig) : String :=
  "<?xml version=\"1.0\" encoding=\"UTF-8\"?>\n<rss version=\"2.0\" xmlns:atom=\"http://www.w3.org/2005/Atom\">\n<channel>\n  <title>" ++
    escapeXml cfg.title ++ "</title>\n  <description>" ++
    escapeXml cfg.description ++ "</description>\n  <link>" ++
    cfg.siteUrl ++ "</link>\n  <atom:link href=\"" ++ cfg.siteUrl ++
    "/rss.xml\" rel=\"self\" type=\"application/rss+xml\"/>\n  <lastBuildDate>"

/-- Everything of the feed after the lastBuildDate text; independent
of the build time. -/
def rssAfter (dateVal : String → Int) (toUTC : String → String)
    (posts : List Post) (cfg : SiteConfig) : String :=
  "</lastBuildDate>\n" ++
    String.join ((rssPosts dateVal posts).map (rssItem toUTC cfg.siteUrl)) ++
    "</channel>\n</rss>"

/-- C3 fails as stated: the feed embeds the build wall-clock in its
lastBuildDate element, so two full builds of the identical (even empty)
source tree at different instants produce different rss.xml bytes. -/
theorem c3_counterexample :
    generateRSS (fun _ => 0) (fun s => s) [] ⟨"T", "D", "http://x"⟩
        "Mon, 01 Jan 2024 00:00:00 GMT" ≠
      generateRSS (fun _ => 0) (fun s => s) [] ⟨"T", "D", "http://x"⟩
        "Tue, 02 Jan 2024 00:00:00 GMT" := by decide

/-- C3 amended: a full rebuild is deterministic given the clock — the
feed decomposes as a prefix and suffix that depend only on the posts
and the configuration around the formatted build time, so two runs on
unchanged sources produce byte-identical rss.xml exactly when their
formatted build timestamps coincide, and differ only in the
lastBuildDate text otherwise. -/
theorem c3_rss_time_dependence :
    ∀ (dateVal : String → Int) (toUTC : String → String) (posts : List Post)
      (cfg : SiteConfig) (now1 now2 : String),
      generateRSS dateVal toUTC posts cfg now1 =
        rssBefore cfg ++ now1 ++ rssAfter dateVal toUTC posts cfg ∧
      (generateRSS dateVal toUTC posts cfg now1 =
        generateRSS dateVal toUTC posts cfg now2 ↔ now1 = now2) := by
  intro dateVal toUTC posts cfg now1 now2
  have hdec : ∀ now : String, generateRSS dateVal toUTC posts cfg now =
      rssBefore cfg ++ now ++ rssAfter dateVal toUTC posts cfg := by
    intro now
    unfold generateRSS rssBefore rssAfter
    simp [String.append_assoc]
  refine ⟨hdec now1, ?_, fun h => by rw [h]⟩
  intro h
  rw [hdec now1, hdec now2] at h
  have hd := congrArg String.data h
  simp only [String.data_append, List.append_assoc] at hd
  have hd2 := List.append_cancel_left hd
  exact String.ext (List.append_cancel_right hd2)

/-! ## Template rendering (builder.js: renderTemplate)

`renderTemplate` loops over the data entries and, for each key, runs
the global regex replace of `\x7b\x7b\s*key\s*\x7d\x7d` by the entry's
value (empty for a falsy value) over the current result.  The replace
is embedded at character level, including the `$`-patterns of a string
replacement argument; the spliced key is matched literally, which is
faithful for keys free of regex metacharacters (every key the program
uses is alphanumeric).  Data values are the JavaScript values coerced
to strings, with `none` standing for a falsy value. -/

/-- A character allowed in a placeholder name between the braces:
neither brace and no whitespace. -/
def isNameChar (c : Char) : Bool :=
  !(c.toNat = 0x7B) && !(c.toNat = 0x7D) && !jsWhitespace c

/-- ASCII identifier characters, free of regex metacharacters. -/
def isKeyChar (c : Char) : Bool :=
  (0x30 ≤ c.toNat && c.toNat ≤ 0x39) || (0x41 ≤ c.toNat && c.toNat ≤ 0x5A) ||
    (0x61 ≤ c.toNat && c.toNat ≤ 0x7A) || c.toNat = 0x5F

/-- A character of a substitution value that can neither create nor
destroy placeholder syntax nor trigger `$`-expansion: no braces, no
dollar. -/
def isCleanValChar (c : Char) : Bool :=
  !(c.toNat = 0x7B) && !(c.toNat = 0x7D) && !(c.toNat = 0x24)

/-- Strip an expected literal prefix. -/
def stripPre : List Char → List Char → Option (List Char)
  | [], s => some s
  | _ :: _, [] => none
  | k :: ks, c :: cs => if c = k then stripPre ks cs else none

/-- Attempt of the anchored match of `\x7b\x7b\s*key\s*\x7d\x7d` at the
head of `s`, returning the matched text and the remainder. -/
def matchPh (key : List Char) (s : List Char) : Option (List Char × List Char) :=
  match s with
  | '\x7b' :: '\x7b' :: rest =>
    (match stripPre key (rest.dropWhile jsWhitespace) with
     | none => none
     | some rest2 =>
       match rest2.dropWhile jsWhitespace with
       | '\x7d' :: '\x7d' :: r =>
         some ('\x7b' :: '\x7b' :: (rest.takeWhile jsWhitespace ++ key ++
           rest2.takeWhile jsWhitespace ++ ['\x7d', '\x7d']), r)
       | _ => none)
  | _ => none

/-- The `GetSubstitution` expansion of a string replacement argument:
`$$`, `$&` (matched text), dollar-backquote (text before the match),
dollar-quote (text after the match); anything else is literal (the
pattern has no capture groups, so `$n` stays literal). -/
def expandRepl (matched before after : List Char) : List Char → List Char
  | [] => []
  | [c] => [c]
  | c :: d :: ds =>
    if c = '$' then
      if d = '$' then '$' :: expandRepl matched before after ds
      else if d = '&' then matched ++ expandRepl matched before after ds
      else if d.toNat = 0x60 then before ++ expandRepl matched before after ds
      else if d.toNat = 0x27 then after ++ expandRepl matched before after ds
      else c :: expandRepl matched before after (d :: ds)
    else c :: expandRepl matched before after (d :: ds)

/-- The left-to-right global replace: at each position try the
placeholder match; on success emit the expanded replacement and resume
after the match, otherwise emit the character.  `pre` tracks the part
of the subject before the current position; the fuel argument is an
upper bound on the scanned length and makes the recursion structural
(every step consumes at least one character). -/
def replacePhGo (key val : List Char) : Nat → List Char → List Char → List Char
  | 0, _, _ => []
  | fuel + 1, pre, s =>
    match s with
    | [] => []
    | c :: cs =>
      match matchPh key (c :: cs) with
      | some (m, r) =>
        expandRepl m pre r val ++ replacePhGo key val fuel (pre ++ m) r
      | none => c :: replacePhGo key val fuel (pre ++ [c]) cs

/-- One pass `result.replace(new RegExp(..., g), value)`. -/
def replacePh (key val result : String) : String :=
  String.mk (replacePhGo key.toList val.toList (result.toList.length + 1) [] result.toList)

/-- Embedding of builder.js renderTemplate: sequential passes over the
entries of the data object, each replacing its own placeholder in the
result of the previous passes, with a falsy value replaced by the empty
string. -/
def renderTemplate (template : String) (data : List (String × Option String)) : String :=
  data.foldl (fun result kv => replacePh kv.1 (Option.getD kv.2 "") result) template

/-- First entry of the data whose placeholder matches at the head of
`s` (used by the claim-side simultaneous semantics). -/
def tryKeys : List (String × Option String) → List Char →
    Option (List Char × List Char × String)
  | [], _ => none
  | kv :: rest, s =>
    match matchPh kv.1.toList s with
    | some (m, r) => some (m, r, Option.getD kv.2 "")
    | none => tryKeys rest s

/-- Single simultaneous scan (claim-side semantics). -/
def renderSpecGo (data : List (String × Option String)) :
    Nat → List Char → List Char
  | 0, _ => []
  | fuel + 1, s =>
    match s with
    | [] => []
    | c :: cs =>
      match tryKeys data (c :: cs) with
      | some (_, r, v) => v.toList ++ renderSpecGo data fuel r
      | none => c :: renderSpecGo data fuel cs

/-- Definition following the words of the claim, for comparison with
the source embedding: in one pass, every placeholder whose name is a
key of the mapping becomes that key's value (empty when falsy) and
every other character, unknown placeholders included, is kept
literally. -/
def renderTemplateSpec (template : String)
    (data : List (String × Option String)) : String :=
  String.mk (renderSpecGo data (template.toList.length + 1) template.toList)

/-- A well-formed template as an alternation of literal text and
placeholder tokens. -/
inductive TItem where
  | lit : String → TItem
  | ph : String → TItem
deriving DecidableEq, Repr

/-- The character stream of a token list; a placeholder renders as its
name between double braces. -/
def renderItemsL : List TItem → List Char
  | [] => []
  | .lit s :: rest => s.toList ++ renderItemsL rest
  | .ph n :: rest =>
    '\x7b' :: '\x7b' :: (n.toList ++ '\x7d' :: '\x7d' :: renderItemsL rest)

/-- The template string of a token list. -/
def renderItems (items : List TItem) : String :=
  String.mk (renderItemsL items)

/-- Effect of one replacement pass on one token. -/
def substOne (key val : String) : TItem → TItem
  | .lit s => .lit s
  | .ph n => if n = key then .lit val else .ph n

/-- Effect of the whole render on one token: the first binding of the
name wins; a name absent from the mapping stays a placeholder. -/
def substItem (data : List (String × Option String)) : TItem → TItem
  | .lit s => .lit s
  | .ph n =>
    match data.find? (fun kv => decide (kv.1 = n)) with
    | some kv => .lit (Option.getD kv.2 "")
    | none => .ph n

/-- Template well-formedness: literal segments contain no opening
brace and placeholder names are nonempty name-character strings. -/
def WfItems (items : List TItem) : Prop :=
  ∀ it ∈ items,
    match it with
    | TItem.lit s => ∀ c ∈ s.toList, ¬(c.toNat = 0x7B)
    | TItem.ph n => n.toList ≠ [] ∧ ∀ c ∈ n.toList, isNameChar c = true

/-- Data cleanliness: identifier keys and brace- and dollar-free
values. -/
def CleanData (data : List (String × Option String)) : Prop :=
  ∀ kv ∈ data,
    kv.1.toList ≠ [] ∧ (∀ c ∈ kv.1.toList, isKeyChar c = true) ∧
      ∀ c ∈ (Option.getD kv.2 "").toList, isCleanValChar c = true

theorem nameChar_props (c : Char) (h : isNameChar c = true) :
    ¬(c.toNat = 0x7B) ∧ ¬(c.toNat = 0x7D) ∧ jsWhitespace c = false := by
  unfold isNameChar at h
  simp only [Bool.and_eq_true, Bool.not_eq_eq_eq_not, Bool.not_true,
    decide_eq_false_iff_not] at h
  exact ⟨h.1.1, h.1.2, h.2⟩

theorem keyChar_isName (c : Char) (h : isKeyChar c = true) : isNameChar c = true := by
  unfold isKeyChar at h
  unfold isNameChar jsWhitespace
  simp only [Bool.or_eq_true, Bool.and_eq_true, decide_eq_true_eq] at h
  simp only [Bool.and_eq_true, Bool.not_eq_eq_eq_not, Bool.not_true,
    decide_eq_false_iff_not, Bool.or_eq_false_iff, Bool.and_eq_false_iff,
    decide_eq_false_iff_not]
  omega

theorem cleanVal_props (c : Char) (h : isCleanValChar c = true) :
    ¬(c.toNat = 0x7B) ∧ ¬(c.toNat = 0x7D) ∧ ¬(c.toNat = 0x24) := by
  unfold isCleanValChar at h
  simp only [Bool.and_eq_true, Bool.not_eq_eq_eq_not, Bool.not_true,
    decide_eq_false_iff_not] at h
  exact ⟨h.1.1, h.1.2, h.2⟩

theorem stripPre_length : ∀ (key s t : List Char), stripPre key s = some t →
    t.length ≤ s.length := by
  intro key
  induction key with
  | nil =>
    intro s t h
    rw [stripPre, Option.some_inj] at h
    rw [h]
  | cons k ks ih =>
    intro s t h
    cases s with
    | nil => simp [stripPre] at h
    | cons c cs =>
      rw [stripPre] at h
      by_cases hc : c = k
      · rw [if_pos hc] at h
        have := ih cs t h
        simp only [List.length_cons]
        omega
      · rw [if_neg hc] at h
        simp at h

theorem stripPre_self : ∀ (key t : List Char), stripPre key (key ++ t) = some t := by
  intro key
  induction key with
  | nil => intro t; rfl
  | cons k ks ih =>
    intro t
    rw [List.cons_append, stripPre, if_pos rfl]
    exact ih t

theorem length_dropWhile_le (p : Char → Bool) (l : List Char) :
    (l.dropWhile p).length ≤ l.length :=
  (List.dropWhile_suffix p).length_le

theorem matchPh_lt (key s m r : List Char) (h : matchPh key s = some (m, r)) :
    r.length < s.length := by
  unfold matchPh at h
  split at h
  · rename_i rest
    split at h
    · simp at h
    · rename_i rest2 hstrip
      split at h
      · rename_i r0 hdrop
        rw [Option.some_inj, Prod.mk.injEq] at h
        have h1 : r0.length + 2 = (rest2.dropWhile jsWhitespace).length := by
          rw [hdrop]
          simp
        have h2 := length_dropWhile_le jsWhitespace rest2
        have h3 := stripPre_length key (rest.dropWhile jsWhitespace) rest2 hstrip
        have h4 := length_dropWhile_le jsWhitespace rest
        rw [← h.2]
        simp only [List.length_cons]
        omega
      · simp at h
  · simp at h

theorem replacePhGo_fuel (key val : List Char) :
    ∀ (f1 : Nat) (s : List Char) (f2 : Nat) (pre : List Char),
      s.length < f1 → s.length < f2 →
      replacePhGo key val f1 pre s = replacePhGo key val f2 pre s := by
  intro f1
  induction f1 with
  | zero => intro s f2 pre h1 _; omega
  | succ f1 ih =>
    intro s f2 pre h1 h2
    cases f2 with
    | zero => omega
    | succ f2 =>
      cases s with
      | nil => rfl
      | cons c cs =>
        rw [replacePhGo, replacePhGo]
        cases hm : matchPh key (c :: cs) with
        | none =>
          simp only [hm]
          rw [ih cs f2 (pre ++ [c]) (by simp at h1; omega) (by simp at h2; omega)]
        | some mr =>
          obtain ⟨m, r⟩ := mr
          simp only [hm]
          have hlt := matchPh_lt key (c :: cs) m r hm
          simp only [List.length_cons] at hlt h1 h2
          rw [ih r f2 (pre ++ m) (by omega) (by omega)]

/-- Canonical full-fuel run of one replacement pass. -/
def replaceRun (key val pre s : List Char) : List Char :=
  replacePhGo key val (s.length + 1) pre s

theorem replaceRun_cons (key val pre : List Char) (c : Char) (cs : List Char) :
    replaceRun key val pre (c :: cs) =
      match matchPh key (c :: cs) with
      | some (m, r) => expandRepl m pre r val ++ replaceRun key val (pre ++ m) r
      | none => c :: replaceRun key val (pre ++ [c]) cs := by
  unfold replaceRun
  rw [show (c :: cs).length + 1 = cs.length + 1 + 1 by simp]
  rw [replacePhGo]
  cases hm : matchPh key (c :: cs) with
  | none => simp only [hm]
  | some mr =>
    obtain ⟨m, r⟩ := mr
    simp only [hm]
    have hlt := matchPh_lt key (c :: cs) m r hm
    simp only [List.length_cons] at hlt
    rw [replacePhGo_fuel key val (cs.length + 1) r (r.length + 1) (pre ++ m)
      (by omega) (by omega)]

theorem matchPh_none_head (key : List Char) (c : Char) (cs : List Char)
    (hc : ¬(c.toNat = 0x7B)) : matchPh key (c :: cs) = none := by
  unfold matchPh
  split
  · rename_i rest heq
    rw [List.cons_eq_cons] at heq
    exact absurd (congrArg Char.toNat heq.1) hc
  · rfl

theorem matchPh_none_two (key : List Char) (c d : Char) (cs : List Char)
    (hd : ¬(d.toNat = 0x7B)) : matchPh key (c :: d :: cs) = none := by
  unfold matchPh
  split
  · rename_i rest heq
    rw [List.cons_eq_cons] at heq
    have := heq.2
    rw [List.cons_eq_cons] at this
    exact absurd (congrArg Char.toNat this.1) hd
  · rfl

theorem replaceRun_append_nolb (key val : List Char) :
    ∀ (s t pre : List Char), (∀ c ∈ s, ¬(c.toNat = 0x7B)) →
      replaceRun key val pre (s ++ t) = s ++ replaceRun key val (pre ++ s) t := by
  intro s
  induction s with
  | nil => intro t pre _; simp
  | cons c s ih =>
    intro t pre h
    rw [List.cons_append, replaceRun_cons]
    rw [matchPh_none_head key c _ (h c (List.mem_cons_self _ _))]
    rw [ih t (pre ++ [c]) (fun x hx => h x (List.mem_cons_of_mem _ hx))]
    simp

theorem expandRepl_of_no_dollar (m b a : List Char) :
    ∀ val : List Char, (∀ c ∈ val, ¬(c.toNat = 0x24)) → expandRepl m b a val = val := by
  intro val
  induction val with
  | nil => intro _; rfl
  | cons c cs ih =>
    intro h
    have hc : ¬(c = '$') := by
      intro he
      exact h c (List.mem_cons_self _ _) (by rw [he]; rfl)
    cases cs with
    | nil => rfl
    | cons d ds =>
      rw [expandRepl, if_neg hc]
      rw [ih (fun x hx => h x (List.mem_cons_of_mem _ hx))]

theorem matchPh_token_eq (key T : List Char) (hne : key ≠ [])
    (hk : ∀ c ∈ key, isNameChar c = true) :
    matchPh key ('\x7b' :: '\x7b' :: (key ++ '\x7d' :: '\x7d' :: T)) =
      some ('\x7b' :: '\x7b' :: (key ++ ['\x7d', '\x7d']), T) := by
  obtain ⟨k, ks, rfl⟩ : ∃ k ks, key = k :: ks := by
    cases key with
    | nil => exact absurd rfl hne
    | cons k ks => exact ⟨k, ks, rfl⟩
  have hkws : ¬(jsWhitespace k = true) := by
    rw [(nameChar_props k (hk k (List.mem_cons_self _ _))).2.2]
    simp
  have hrb : ¬(jsWhitespace '\x7d' = true) := by decide
  simp only [matchPh, List.cons_append]
  rw [List.dropWhile_cons_of_neg hkws, List.takeWhile_cons_of_neg hkws]
  rw [← List.cons_append, stripPre_self]
  have hdrop : List.dropWhile jsWhitespace ('\x7d' :: '\x7d' :: T) = '\x7d' :: '\x7d' :: T :=
    List.dropWhile_cons_of_neg hrb
  have htake : List.takeWhile jsWhitespace ('\x7d' :: '\x7d' :: T) = [] :=
    List.takeWhile_cons_of_neg hrb
  simp [hdrop, htake]

theorem stripPre_token : ∀ (key name rest : List Char),
    (∀ c ∈ key, isNameChar c = true) → (∀ c ∈ name, isNameChar c = true) →
    key ≠ name →
    stripPre key (name ++ '\x7d' :: '\x7d' :: rest) = none ∨
      ∃ d ds, stripPre key (name ++ '\x7d' :: '\x7d' :: rest) = some (d :: ds) ∧
        isNameChar d = true := by
  intro key
  induction key with
  | nil =>
    intro name rest _ hname hne
    cases name with
    | nil => exact absurd rfl hne
    | cons d ds =>
      right
      exact ⟨d, ds ++ '\x7d' :: '\x7d' :: rest, by rw [List.cons_append, stripPre],
        hname d (List.mem_cons_self _ _)⟩
  | cons k ks ih =>
    intro name rest hkey hname hne
    cases name with
    | nil =>
      left
      rw [List.nil_append, stripPre, if_neg]
      intro he
      have hk := (nameChar_props k (hkey k (List.mem_cons_self _ _))).2.1
      exact hk (congrArg Char.toNat he).symm
    | cons n ns =>
      rw [List.cons_append, stripPre]
      by_cases hkn : n = k
      · rw [if_pos hkn]
        have hks : ks ≠ ns := by
          intro he
          rw [hkn, he] at hne
          exact hne rfl
        exact ih ns rest (fun c hc => hkey c (List.mem_cons_of_mem _ hc))
          (fun c hc => hname c (List.mem_cons_of_mem _ hc)) hks
      · rw [if_neg hkn]
        left
        rfl

theorem matchPh_token_ne (key name T : List Char)
    (hkey : ∀ c ∈ key, isNameChar c = true) (hname : name ≠ [])
    (hnc : ∀ c ∈ name, isNameChar c = true) (hne : key ≠ name) :
    matchPh key ('\x7b' :: '\x7b' :: (name ++ '\x7d' :: '\x7d' :: T)) = none := by
  obtain ⟨n, ns, rfl⟩ : ∃ a as, name = a :: as := by
    cases name with
    | nil => exact absurd rfl hname
    | cons a as => exact ⟨a, as, rfl⟩
  have hnws : ¬(jsWhitespace n = true) := by
    rw [(nameChar_props n (hnc n (List.mem_cons_self _ _))).2.2]
    simp
  simp only [matchPh, List.cons_append]
  rw [List.dropWhile_cons_of_neg hnws, ← List.cons_append]
  rcases stripPre_token key (n :: ns) T hkey hnc hne with hnone | ⟨d, ds, hsome, hd⟩
  · rw [hnone]
  · rw [hsome]
    have hdws : ¬(jsWhitespace d = true) := by
      rw [(nameChar_props d hd).2.2]
      simp
    have hdrop : List.dropWhile jsWhitespace (d :: ds) = d :: ds :=
      List.dropWhile_cons_of_neg hdws
    simp only [hdrop]
    split
    · rename_i r heq
      rw [List.cons_eq_cons] at heq
      exact absurd (congrArg Char.toNat heq.1) (nameChar_props d hd).2.1
    · rfl

theorem replaceRun_cons_none (key val pre : List Char) (c : Char) (cs : List Char)
    (h : matchPh key (c :: cs) = none) :
    replaceRun key val pre (c :: cs) = c :: replaceRun key val (pre ++ [c]) cs := by
  rw [replaceRun_cons, h]

theorem replaceRun_cons_some (key val pre : List Char) (c : Char) (cs m r : List Char)
    (h : matchPh key (c :: cs) = some (m, r)) :
    replaceRun key val pre (c :: cs) =
      expandRepl m pre r val ++ replaceRun key val (pre ++ m) r := by
  rw [replaceRun_cons, h]

theorem replaceRun_items (key val : String)
    (hkeyne : key.toList ≠ []) (hkeyc : ∀ c ∈ key.toList, isNameChar c = true)
    (hval : ∀ c ∈ val.toList, isCleanValChar c = true) :
    ∀ (items : List TItem) (pre : List Char), WfItems items →
      replaceRun key.toList val.toList pre (renderItemsL items) =
        renderItemsL (items.map (substOne key val)) := by
  intro items
  induction items with
  | nil => intro pre _; rfl
  | cons it rest ih =>
    intro pre hwf
    have hwfrest : WfItems rest := fun x hx => hwf x (List.mem_cons_of_mem _ hx)
    cases it with
    | lit s =>
      have hs : ∀ c ∈ s.toList, ¬(c.toNat = 0x7B) :=
        hwf (.lit s) (List.mem_cons_self _ _)
      simp only [renderItemsL, List.map]
      rw [replaceRun_append_nolb _ _ _ _ _ hs, ih _ hwfrest]
    | ph n =>
      have hn : n.toList ≠ [] ∧ ∀ c ∈ n.toList, isNameChar c = true :=
        hwf (.ph n) (List.mem_cons_self _ _)
      obtain ⟨hn1, hn2⟩ := hn
      by_cases heq : n = key
      · subst heq
        simp only [renderItemsL, List.map]
        rw [replaceRun_cons_some _ _ _ _ _ _ _ (matchPh_token_eq n.toList _ hn1 hn2)]
        rw [expandRepl_of_no_dollar _ _ _ _
          (fun c hc => (cleanVal_props c (hval c hc)).2.2)]
        rw [ih _ hwfrest]
        simp [substOne, renderItemsL]
      · have hne2 : key.toList ≠ n.toList := fun he => heq (String.ext he).symm
        obtain ⟨n0, ns, hnl⟩ : ∃ a as, n.toList = a :: as := by
          cases hcc : n.toList with
          | nil => exact absurd hcc hn1
          | cons a as => exact ⟨a, as, rfl⟩
        have hn0 := nameChar_props n0 (hn2 n0 (by rw [hnl]; exact List.mem_cons_self _ _))
        have hnolb : ∀ c ∈ n.toList, ¬(c.toNat = 0x7B) :=
          fun c hc => (nameChar_props c (hn2 c hc)).1
        have hlb : ¬(('\x7d' : Char).toNat = 0x7B) := by decide
        simp only [renderItemsL, List.map]
        rw [replaceRun_cons_none _ _ _ _ _
          (matchPh_token_ne key.toList n.toList _ hkeyc hn1 hn2 hne2)]
        rw [hnl, List.cons_append]
        rw [replaceRun_cons_none _ _ _ _ _
          (matchPh_none_two key.toList _ n0 _ hn0.1)]
        rw [← List.cons_append, ← hnl]
        rw [replaceRun_append_nolb _ _ _ _ _ hnolb]
        rw [replaceRun_cons_none _ _ _ _ _
          (matchPh_none_head key.toList '\x7d' _ hlb)]
        rw [replaceRun_cons_none _ _ _ _ _
          (matchPh_none_head key.toList '\x7d' _ hlb)]
        rw [ih _ hwfrest]
        simp [substOne, heq, renderItemsL]

theorem wfItems_substOne (key val : String)
    (hval : ∀ c ∈ val.toList, isCleanValChar c = true) (items : List TItem)
    (hwf : WfItems items) : WfItems (items.map (substOne key val)) := by
  intro it hit
  rw [List.mem_map] at hit
  obtain ⟨it0, hit0, rfl⟩ := hit
  have h0 := hwf it0 hit0
  cases it0 with
  | lit s => exact h0
  | ph n =>
    by_cases heq : n = key
    · simp only [substOne, if_pos heq]
      intro c hc
      exact (cleanVal_props c (hval c hc)).1
    · simp only [substOne, if_neg heq]
      exact h0

theorem substItem_nil (it : TItem) : substItem [] it = it := by
  cases it <;> rfl

theorem substItem_cons (kv : String × Option String)
    (rest : List (String × Option String)) (it : TItem) :
    substItem (kv :: rest) it =
      substItem rest (substOne kv.1 (Option.getD kv.2 "") it) := by
  cases it with
  | lit s => rfl
  | ph n =>
    by_cases h : kv.1 = n
    · simp [substItem, substOne, List.find?_cons, h]
    · have h2 : ¬(n = kv.1) := fun hh => h hh.symm
      simp [substItem, substOne, List.find?_cons, h, h2]

/-- C7 fails as stated: the passes run sequentially over the entries of
the mapping, so a placeholder inside an already-substituted value is
substituted by a later pass.  With template of a single placeholder of
name a, and a mapping where the value of a is the placeholder of name b
and b maps to X, the output is X, not the a-value left verbatim as the
claim (simultaneous substitution) prescribes. -/
theorem c7_counterexample :
    renderTemplate "\x7b\x7ba\x7d\x7d"
        [("a", some "\x7b\x7bb\x7d\x7d"), ("b", some "X")] = "X" ∧
    renderTemplateSpec "\x7b\x7ba\x7d\x7d"
        [("a", some "\x7b\x7bb\x7d\x7d"), ("b", some "X")] = "\x7b\x7bb\x7d\x7d" ∧
    renderTemplate "\x7b\x7ba\x7d\x7d"
        [("a", some "\x7b\x7bb\x7d\x7d"), ("b", some "X")] ≠
      renderTemplateSpec "\x7b\x7ba\x7d\x7d"
        [("a", some "\x7b\x7bb\x7d\x7d"), ("b", some "X")] :=
  ⟨by decide, by decide, by decide⟩

/-- C7 amended: for a template that is an alternation of literal
segments without opening braces and simple placeholder tokens, and a
mapping with identifier keys and brace- and dollar-free values, the
sequential passes of renderTemplate agree with simultaneous
substitution: every placeholder whose name is a key of the mapping
becomes that key's value (first binding; empty string for a falsy
value) and every placeholder whose name is not a key stays literally in
the output. -/
theorem c7_render_template :
    ∀ (items : List TItem) (data : List (String × Option String)),
      WfItems items → CleanData data →
      renderTemplate (renderItems items) data =
        renderItems (items.map (substItem data)) := by
  intro items data
  induction data generalizing items with
  | nil =>
    intro hwf hcd
    clear hwf hcd
    have hmap : items.map (substItem []) = items := by
      induction items with
      | nil => rfl
      | cons it rest ihh => rw [List.map_cons, substItem_nil, ihh]
    rw [hmap]
    rfl
  | cons kv rest ih =>
    intro hwf hclean
    have hkv := hclean kv (List.mem_cons_self _ _)
    have hcleanrest : CleanData rest := fun x hx => hclean x (List.mem_cons_of_mem _ hx)
    have hpass : replacePh kv.1 (Option.getD kv.2 "") (renderItems items) =
        renderItems (items.map (substOne kv.1 (Option.getD kv.2 ""))) := by
      have hr := replaceRun_items kv.1 (Option.getD kv.2 "") hkv.1
        (fun c hc => keyChar_isName c (hkv.2.1 c hc)) hkv.2.2 items [] hwf
      exact congrArg String.mk hr
    have hwf2 := wfItems_substOne kv.1 (Option.getD kv.2 "") hkv.2.2 items hwf
    show renderTemplate (replacePh kv.1 (Option.getD kv.2 "") (renderItems items)) rest =
      renderItems (items.map (substItem (kv :: rest)))
    rw [hpass, ih _ hwf2 hcleanrest, List.map_map]
    rw [show substItem rest ∘ substOne kv.1 (Option.getD kv.2 "") =
      substItem (kv :: rest) from funext fun it => (substItem_cons kv rest it).symm]

/-- Closed witness for c7_render_template: a template with a known
placeholder, a literal, a falsy-valued placeholder and an unknown
placeholder. -/
theorem c7_render_template_witness :
    renderTemplate (renderItems [TItem.ph "title", TItem.lit " by ",
        TItem.ph "author", TItem.ph "missing"])
      [("title", some "T"), ("author", none)] =
      renderItems [TItem.lit "T", TItem.lit " by ", TItem.lit "",
        TItem.ph "missing"] := by
  have h := c7_render_template
    [TItem.ph "title", TItem.lit " by ", TItem.ph "author", TItem.ph "missing"]
    [("title", some "T"), ("author", none)]
    (by
      intro it hit
      simp only [List.mem_cons, List.not_mem_nil, or_false] at hit
      rcases hit with rfl | rfl | rfl | rfl <;> decide)
    (by
      intro kv hkv
      simp only [List.mem_cons, List.not_mem_nil, or_false] at hkv
      rcases hkv with rfl | rfl <;> decide)
  rw [h]
  decide

/-! ## Dev server path sanitization (server.js: sanitizePath and the
request handler)

`decodeURIComponent` is embedded as percent-byte parsing followed by
structural UTF-8 assembly (a malformed percent escape or byte sequence
throws, modelled as `none`; the embedding does not reject overlong or
surrogate encodings, which only makes the decoder accept more — the
safety statements below hold for every decode result).  Posix
`path.join`/`path.resolve` are embedded as component normalization
against an explicit current working directory. -/

/-- Value of one hex digit. -/
def hexVal (c : Char) : Option Nat :=
  if 0x30 ≤ c.toNat ∧ c.toNat ≤ 0x39 then some (c.toNat - 0x30)
  else if 0x41 ≤ c.toNat ∧ c.toNat ≤ 0x46 then some (c.toNat - 0x41 + 10)
  else if 0x61 ≤ c.toNat ∧ c.toNat ≤ 0x66 then some (c.toNat - 0x61 + 10)
  else none

/-- Parse percent escapes into bytes, keeping other characters. -/
def pctParse : List Char → Option (List (Char ⊕ Nat))
  | [] => some []
  | c :: cs =>
    if c = '%' then
      match cs with
      | h1 :: h2 :: cs2 =>
        match hexVal h1, hexVal h2 with
        | some a, some b => (pctParse cs2).map (fun l => .inr (a * 16 + b) :: l)
        | _, _ => none
      | _ => none
    else (pctParse cs).map (fun l => .inl c :: l)

/-- UTF-8 continuation byte. -/
def isCont (b : Nat) : Bool := 0x80 ≤ b && b ≤ 0xBF

/-- Assemble percent-decoded bytes into characters by UTF-8 structure;
a dangling or ill-formed sequence fails. -/
def utf8Assemble : List (Char ⊕ Nat) → Option (List Char)
  | [] => some []
  | .inl c :: rest => (utf8Assemble rest).map (fun l => c :: l)
  | .inr b :: rest =>
    if b < 0x80 then (utf8Assemble rest).map (fun l => Char.ofNat b :: l)
    else if 0xC2 ≤ b ∧ b ≤ 0xDF then
      match rest with
      | .inr b2 :: rest2 =>
        if isCont b2 then
          (utf8Assemble rest2).map (fun l =>
            Char.ofNat ((b - 0xC0) * 64 + (b2 - 0x80)) :: l)
        else none
      | _ => none
    else if 0xE0 ≤ b ∧ b ≤ 0xEF then
      match rest with
      | .inr b2 :: .inr b3 :: rest2 =>
        if isCont b2 && isCont b3 then
          (utf8Assemble rest2).map (fun l =>
            Char.ofNat ((b - 0xE0) * 4096 + (b2 - 0x80) * 64 + (b3 - 0x80)) :: l)
        else none
      | _ => none
    else if 0xF0 ≤ b ∧ b ≤ 0xF4 then
      match rest with
      | .inr b2 :: .inr b3 :: .inr b4 :: rest2 =>
        if isCont b2 && isCont b3 && isCont b4 then
          (utf8Assemble rest2).map (fun l =>
            Char.ofNat ((b - 0xF0) * 262144 + (b2 - 0x80) * 4096 +
              (b3 - 0x80) * 64 + (b4 - 0x80)) :: l)
        else none
      | _ => none
    else none

/-- Embedding of `decodeURIComponent`; `none` models the URIError. -/
def decodeURIComponent (s : String) : Option String :=
  (pctParse s.toList).bind (fun l => (utf8Assemble l).map String.mk)

/-- Split a character list at a separator character. -/
def splitOnChar (sep : Char) : List Char → List (List Char)
  | [] => [[]]
  | c :: cs =>
    let r := splitOnChar sep cs
    if c = sep then [] :: r
    else
      match r with
      | [] => [[c]]
      | h :: t => (c :: h) :: t

/-- Path components of a posix path string. -/
def pathComps (s : String) : List String :=
  (splitOnChar '/' s.toList).map String.mk

/-- Normalization stack of `path.resolve` on an absolute component
list: drop empty and dot components, pop on dot-dot (clamped at the
root), push anything else. -/
def resolveComps (acc : List String) : List String → List String
  | [] => acc.reverse
  | c :: rest =>
    if c = "" ∨ c = "." then resolveComps acc rest
    else if c = ".." then resolveComps (acc.drop 1) rest
    else resolveComps (c :: acc) rest

/-- Whether a path is absolute. -/
def startsWithSlash (p : String) : Bool :=
  match p.toList with
  | '/' :: _ => true
  | _ => false

/-- Joining of path components with slashes. -/
def joinComps : List String → String
  | [] => ""
  | [c] => c
  | c :: rest => c ++ "/" ++ joinComps rest

/-- Embedding of posix `path.resolve(p)` against the working directory
`cwd` (itself an absolute path). -/
def resolveAbs (cwd p : String) : String :=
  let comps := if startsWithSlash p then pathComps p
               else pathComps cwd ++ pathComps p
  "/" ++ joinComps (resolveComps [] comps)

/-- Prefix test on strings (JavaScript `String.prototype.startsWith`). -/
def strStarts (pre s : String) : Bool := pre.toList.isPrefixOf s.toList

/-- Occurrence of `sub` as a contiguous substring of the list. -/
def listIncl (sub : List Char) : List Char → Bool
  | [] => sub.isEmpty
  | c :: cs => sub.isPrefixOf (c :: cs) || listIncl sub cs

/-- Substring test on strings (JavaScript `String.prototype.includes`). -/
def strIncludes (sub s : String) : Bool := listIncl sub.toList s.toList

/-- Embedding of server.js sanitizePath: decode the URL (failure means
403), reject a decoded path containing dot-dot, double slash or a
backslash, resolve `path.join(outputDir, decoded)` and reject a
resolution that does not stay under the resolved output root. -/
def sanitizePath (cwd outputDir urlPath : String) : Option String :=
  match decodeURIComponent urlPath with
  | none => none
  | some decoded =>
    if strIncludes ".." decoded || strIncludes "//" decoded ||
        strIncludes "\\" decoded then none
    else if strStarts (resolveAbs cwd outputDir)
        (resolveAbs cwd (outputDir ++ "/" ++ decoded)) then
      some (resolveAbs cwd (outputDir ++ "/" ++ decoded))
    else none

/-- Embedding of posix `path.extname` (the Node special cases for the
bare dot components are folded in). -/
def extname (p : String) : String :=
  let b := p.toList.foldl (fun acc c => if c = '/' then [] else acc ++ [c]) []
  if b = ['.', '.'] then ""
  else
    let revAfter := b.reverse.takeWhile (fun c => !(c = '.'))
    if revAfter.length = b.length then ""
    else if b.length - revAfter.length - 1 = 0 then ""
    else String.mk ('.' :: revAfter.reverse)

/-- The part of the request URL before the query string,
`req.url.split('?')[0]`. -/
def stripQuery (url : String) : String :=
  String.mk (url.toList.takeWhile (fun c => !(c = '?')))

/-- The handler's path rewriting before sanitization: the site root
becomes `/index.html` and an extensionless path gets `.html`. -/
def requestPath (url : String) : String :=
  let u1 := if url = "/" then "/index.html" else url
  if extname u1 = "" then u1 ++ ".html" else u1

/-- The response of the request handler, as far as the sanitization
claim observes it. -/
inductive DevResponse where
  | forbidden : DevResponse
  | notFound : DevResponse
  | ok : String → DevResponse
  | liveReload : DevResponse
deriving DecidableEq, Repr

/-- Embedding of the dev-server request handler of startDevServer: the
response together with the list of file paths it reads from disk.
`fileExists` models `fs.existsSync`; the in-memory file cache only ever
stats and reads the same sanitized path, so it is transparent to this
view. -/
def handleRequest (cwd outputDir : String) (fileExists : String → Bool)
    (url : String) : DevResponse × List String :=
  if stripQuery url = "/__live-reload" then (.liveReload, [])
  else
    match sanitizePath cwd outputDir (requestPath (stripQuery url)) with
    | none => (.forbidden, [])
    | some filePath =>
      if fileExists filePath then (.ok filePath, [filePath])
      else if fileExists (outputDir ++ "/404.html") then
        (.notFound, [outputDir ++ "/404.html"])
      else (.notFound, [])

theorem sanitizePath_decoded (cwd outputDir urlPath decoded : String)
    (h : decodeURIComponent urlPath = some decoded) :
    sanitizePath cwd outputDir urlPath =
      (if strIncludes ".." decoded || strIncludes "//" decoded ||
          strIncludes "\\" decoded then none
       else if strStarts (resolveAbs cwd outputDir)
           (resolveAbs cwd (outputDir ++ "/" ++ decoded)) then
         some (resolveAbs cwd (outputDir ++ "/" ++ decoded))
       else none) := by
  unfold sanitizePath
  rw [h]

theorem sanitizePath_some_under_root (cwd outputDir urlPath p : String)
    (h : sanitizePath cwd outputDir urlPath = some p) :
    strStarts (resolveAbs cwd outputDir) p = true := by
  cases hd : decodeURIComponent urlPath with
  | none =>
    unfold sanitizePath at h
    rw [hd] at h
    exact absurd h (by simp)
  | some decoded =>
    rw [sanitizePath_decoded cwd outputDir urlPath decoded hd] at h
    split at h
    · exact absurd h (by simp)
    · split at h
      · rw [Option.some_inj] at h
        rw [← h]
        assumption
      · exact absurd h (by simp)

/-- C8: the dev server never reads from disk on a rejected request; a
served file's resolved path always lies under the resolved output
root; decoding failure, a decoded dot-dot, double slash or backslash,
and a resolution escaping the root are each rejected; and both the
plain `/../../etc/passwd` traversal and a percent-encoded `%2e%2e`
variant are answered 403 without any disk read, whatever files exist. -/
theorem c8_path_sanitization :
    (∀ (cwd outputDir : String) (fileExists : String → Bool) (url : String),
       (handleRequest cwd outputDir fileExists url).1 = .forbidden →
         (handleRequest cwd outputDir fileExists url).2 = []) ∧
    (∀ (cwd outputDir : String) (fileExists : String → Bool) (url p : String),
       (handleRequest cwd outputDir fileExists url).1 = .ok p →
         strStarts (resolveAbs cwd outputDir) p = true ∧
           (handleRequest cwd outputDir fileExists url).2 = [p]) ∧
    (∀ cwd outputDir urlPath, decodeURIComponent urlPath = none →
       sanitizePath cwd outputDir urlPath = none) ∧
    (∀ cwd outputDir urlPath decoded,
       decodeURIComponent urlPath = some decoded →
       (strIncludes ".." decoded || strIncludes "//" decoded ||
         strIncludes "\\" decoded) = true →
       sanitizePath cwd outputDir urlPath = none) ∧
    (∀ cwd outputDir urlPath decoded,
       decodeURIComponent urlPath = some decoded →
       strStarts (resolveAbs cwd outputDir)
         (resolveAbs cwd (outputDir ++ "/" ++ decoded)) = false →
       sanitizePath cwd outputDir urlPath = none) ∧
    (∀ fileExists : String → Bool,
       handleRequest "/srv" "/srv/site/public" fileExists "/../../etc/passwd" =
         (.forbidden, [])) ∧
    (∀ fileExists : String → Bool,
       handleRequest "/srv" "/srv/site/public" fileExists "/%2e%2e/secret" =
         (.forbidden, [])) := by
  refine ⟨?_, ?_, ?_, ?_, ?_, fun _ => rfl, fun _ => rfl⟩
  · intro cwd outputDir fileExists url
    unfold handleRequest
    split
    · intro _; rfl
    · split
      · intro _; rfl
      · split
        · intro h; exact absurd h (by simp)
        · split
          · intro h; exact absurd h (by simp)
          · intro _; rfl
  · intro cwd outputDir fileExists url p
    unfold handleRequest
    split
    · intro h; exact absurd h (by simp)
    · split
      · intro h; exact absurd h (by simp)
      · rename_i filePath hsan
        split
        · intro h
          simp only [DevResponse.ok.injEq] at h
          subst h
          exact ⟨sanitizePath_some_under_root _ _ _ _ hsan, rfl⟩
        · split
          · intro h; exact absurd h (by simp)
          · intro h; exact absurd h (by simp)
  · intro cwd outputDir urlPath h
    unfold sanitizePath
    rw [h]
  · intro cwd outputDir urlPath decoded h hbad
    rw [sanitizePath_decoded cwd outputDir urlPath decoded h, if_pos hbad]
  · intro cwd outputDir urlPath decoded h hesc
    rw [sanitizePath_decoded cwd outputDir urlPath decoded h]
    split
    · rfl
    · rw [if_neg (by rw [hesc]; exact Bool.false_ne_true)]

/-! ## Watch debounce (server.js: debouncedBuild)

Embedding of the timer discipline as an event trace: time is in
milliseconds, `events` is the ascending list of file-change instants,
and every event clears any pending timer and arms a new one for 150 ms
later, so a timer fires exactly when no later event precedes its
deadline (an event falling exactly on the deadline is taken as
arriving after the fire).  Crucially, `clearTimeout` of a timer whose
callback has already started is a no-op and the source keeps no
build-in-flight flag, so every fire starts a build regardless of a
build already running: a fire at `f` occupies the interval from `f` to
`f + dur f`, where `dur` gives the wall-clock duration of the
(awaited, asynchronous) build started at `f`.  Each fire runs exactly
one rebuild followed, on success, by one reload broadcast. -/

/-- The instants at which the debounce timer fires, for an ascending
list of change-event instants and window `w`. -/
def debounceFires (w : Nat) : List Nat → List Nat
  | [] => []
  | [e] => [e + w]
  | e1 :: e2 :: rest =>
    if e2 < e1 + w then debounceFires w (e2 :: rest)
    else (e1 + w) :: debounceFires w (e2 :: rest)

/-- Whether two of the builds started at the (ascending) fire instants
overlap in time. -/
def buildsOverlap (dur : Nat → Nat) : List Nat → Bool
  | f1 :: f2 :: rest =>
    decide (f2 < f1 + dur f1) || buildsOverlap dur (f2 :: rest)
  | _ => false

/-- Last element of a nonempty list given as head and tail. -/
def lastFrom (e : Nat) : List Nat → Nat
  | [] => e
  | x :: xs => lastFrom x xs

/-- C4 fails in its mutual-exclusion part: with change events at 0 ms
and 200 ms and a build lasting 300 ms, the timer fires at 150 ms and —
re-armed by the second event while the first build is still awaited —
again at 350 ms, starting a second build 100 ms before the first
completes at 450 ms.  The debounce timer is re-armed before the
callback returns, and two rebuilds run concurrently. -/
theorem c4_counterexample :
    debounceFires 150 [0, 200] = [150, 350] ∧
    buildsOverlap (fun _ => 300) (debounceFires 150 [0, 200]) = true := by
  refine ⟨by decide, by decide⟩

/-- C4 amended: any burst of file-change events in which each event
falls within the debounce window (150 ms) of the previous one triggers
exactly one timer fire, hence exactly one rebuild and (on success) one
reload broadcast.  However, nothing prevents the timer from being
re-armed while a build is in flight — the timeout callback is
asynchronous and `clearTimeout` of a fired timer is a no-op — so a
build outliving the debounce window may overlap the next build. -/
theorem c4_debounce_coalescing :
    ∀ (w : Nat) (e : Nat) (es : List Nat),
      List.Chain (fun a b => b < a + w) e es →
      debounceFires w (e :: es) = [lastFrom e es + w] := by
  intro w e es
  induction es generalizing e with
  | nil => intro _; rfl
  | cons e2 rest ih =>
    intro hchain
    cases hchain with
    | cons hlt htail =>
      rw [debounceFires, if_pos hlt]
      exact ih e2 htail

/-- Closed witness for c4_debounce_coalescing: three events inside one
window produce a single fire. -/
theorem c4_debounce_coalescing_witness :
    debounceFires 150 [0, 50, 100] = [250] :=
  c4_debounce_coalescing 150 0 [50, 100]
    (List.Chain.cons (by omega) (List.Chain.cons (by omega) List.Chain.nil))

/-- Closed witness for c3_rss_time_dependence at a concrete empty site
and timestamp. -/
theorem c3_rss_time_dependence_witness :
    generateRSS (fun _ => 0) (fun s => s) [] ⟨"T", "D", "http://x"⟩
        "Mon, 01 Jan 2024 00:00:00 GMT" =
      rssBefore ⟨"T", "D", "http://x"⟩ ++ "Mon, 01 Jan 2024 00:00:00 GMT" ++
        rssAfter (fun _ => 0) (fun s => s) [] ⟨"T", "D", "http://x"⟩ :=
  (c3_rss_time_dependence (fun _ => 0) (fun s => s) [] ⟨"T", "D", "http://x"⟩
    "Mon, 01 Jan 2024 00:00:00 GMT" "").1

/-- Closed witness for c6_related_posts: its general part applied at a
concrete pair of posts. -/
theorem c6_related_posts_witness :
    findRelatedPosts ⟨"p", "p.md", "P", "2024-01-01", "", ["t"], "post", false, 1⟩
        [⟨"p", "p.md", "P", "2024-01-01", "", ["t"], "post", false, 1⟩,
         ⟨"q", "q.md", "Q", "2024-01-02", "", ["t"], "post", false, 1⟩] 3 =
      relatedPostsSpec ⟨"p", "p.md", "P", "2024-01-01", "", ["t"], "post", false, 1⟩
        [⟨"p", "p.md", "P", "2024-01-01", "", ["t"], "post", false, 1⟩,
         ⟨"q", "q.md", "Q", "2024-01-02", "", ["t"], "post", false, 1⟩] 3 :=
  c6_related_posts.1 _ _ 3

/-- Closed witness for c8_path_sanitization: the traversal request is
rejected even on a filesystem claiming every path exists. -/
theorem c8_path_sanitization_witness :
    handleRequest "/srv" "/srv/site/public" (fun _ => true) "/../../etc/passwd" =
      (.forbidden, []) :=
  c8_path_sanitization.2.2.2.2.2.1 (fun _ => true)

end LiteBlog
